import Mathlib

/-!
# Verification of the toydb storage engine core

Shallow embedding of the `rizalta/toydb` key/value storage engine:

* `storage/storage.go` — log-structured record store (`Store`): record
  serialization, FNV-64a key hashing, `Put`/`Add`/`Update`/`Delete`/`Get`,
  startup recovery by log replay (`recoverIndex`);
* `pager/pager.go` — paged file with LRU write-back cache, free list and
  closed-state discipline;
* `index/` — disk-resident B+tree over byte-string keys (`Index`): insert with
  node splits, delete with underflow/borrow/merge, range cursors.

Go byte slices are modelled as `List Nat` (each element a byte value), machine
integers as `Nat` with explicit `% 2 ^ 32` / `% 2 ^ 64` where Go arithmetic
wraps, and fallible operations return `Option`/`Except`.  File contents are
`List Nat`; page stores are association lists.  Concurrency (the pager's
background sync goroutine and mutex) is not modelled; all operations are
sequential, as in the single-caller discipline the engine assumes.
-/

namespace ToyDB

/-! ## Byte-level helpers (encoding/binary, little-endian) -/

/-- Little-endian 4-byte encoding of `binary.LittleEndian.PutUint32` applied to
`uint32(n)` (Go's `uint32` conversion truncates, which the byte decomposition
performs implicitly). -/
def le32 (n : Nat) : List Nat :=
  [n % 256, n / 2 ^ 8 % 256, n / 2 ^ 16 % 256, n / 2 ^ 24 % 256]

/-- `binary.LittleEndian.Uint32`: read a little-endian `u32` from the first
four bytes of `data`. -/
def readLe32 (data : List Nat) : Nat :=
  data.getD 0 0 + 2 ^ 8 * data.getD 1 0 + 2 ^ 16 * data.getD 2 0 + 2 ^ 24 * data.getD 3 0

/-! ## Record layout (`storage/storage.go`)

`type RecordType byte`; `RecordTypeInsert = 0`, `RecordTypeDelete = 1`.
A `Record` owns its key bytes and value bytes (`nil` slices are the empty
list). -/

def RecordTypeInsert : Nat := 0

def RecordTypeDelete : Nat := 1

structure Record where
  rtype : Nat
  key : List Nat
  value : List Nat
  deriving DecidableEq

/-- `Record.serialize`: 1-byte type, little-endian `u32` key length,
little-endian `u32` value length, key bytes, value bytes.  The Go code builds
a buffer of `9 + len(key) + len(value)` bytes and copies the fields at those
offsets; for slices shorter than `2^32` (the only lengths a `u32` length field
can describe) the result is exactly this concatenation. -/
def Record.serialize (r : Record) : List Nat :=
  r.rtype % 256 :: (le32 r.key.length ++ le32 r.value.length ++ r.key ++ r.value)

/-- `deserialize`: reject records shorter than the 9-byte header, read the two
length fields, reject when fewer than `9 + keyLen + valueLen` bytes are
available (Go computes that bound in `uint32` arithmetic, hence the
`% 2 ^ 32`), then slice out the key; the value is extracted only for an
`Insert` record with a positive value length (otherwise Go leaves it `nil`). -/
def deserialize (data : List Nat) : Option Record :=
  if data.length < 9 then none
  else
    let recordType := data.getD 0 0
    let keyLen := readLe32 (data.drop 1)
    let valueLen := readLe32 (data.drop 5)
    if data.length < (9 + keyLen + valueLen) % 2 ^ 32 then none
    else
      let key := (data.drop 9).take keyLen
      let value :=
        if recordType = RecordTypeInsert ∧ 0 < valueLen then (data.drop (9 + keyLen)).take valueLen
        else []
      some ⟨recordType, key, value⟩

/-- A record the serializer can faithfully represent: its type byte is
`Insert` or `Delete`, a `Delete` carries no value bytes, and both length
fields fit in a `u32`. -/
def Record.WF (r : Record) : Prop :=
  (r.rtype = RecordTypeInsert ∨ (r.rtype = RecordTypeDelete ∧ r.value = [])) ∧
    r.key.length < 2 ^ 32 ∧ r.value.length < 2 ^ 32

/-! ## Key hashing (`hashKey`, `hash/fnv` FNV-64a)

`hashKey` feeds the key bytes to `fnv.New64a()` and returns the 64-bit sum.
FNV-1a: start from the offset basis; for each byte, XOR it in and multiply by
the FNV prime, in `uint64` arithmetic. -/

def fnvOffsetBasis : Nat := 14695981039346656037

def fnvPrime : Nat := 1099511628211

def fnvStep (h b : Nat) : Nat := ((h ^^^ b) * fnvPrime) % 2 ^ 64

def hashKey (key : List Nat) : Nat := key.foldl fnvStep fnvOffsetBasis

/-! ## The index as the Store sees it

`storage.go` consumes the B+tree only through its `Index` interface
(`Insert(hash, offset, mode)`, `Search(hash)`, `Delete(hash)`, `Close`) over
`uint64` hashed keys.  We model that collaborator by its key→value map
semantics: `Search` returns the stored value or `ErrKeyNotFound`; `Insert`
overwrites on `Upsert`, fails with `ErrKeyAlreadyExists` on `InsertOnly` for a
present key and with `ErrKeyNotFound` on `UpdateOnly` for an absent key — in
the failing cases `index.insert` returns the error before any node is
written, so the mapping is unchanged.  The map is an association list where
the most recent binding for a hash shadows older ones. -/

def IdxMap := List (Nat × Nat)

inductive IdxErr
  | keyNotFound
  | keyAlreadyExists
  deriving DecidableEq

def idxLookup : IdxMap → Nat → Option Nat
  | [], _ => none
  | (k, v) :: rest, h => if k = h then some v else idxLookup rest h

def idxSet (m : IdxMap) (k v : Nat) : IdxMap := (k, v) :: m

inductive InsertMode
  | upsert
  | insertOnly
  | updateOnly
  deriving DecidableEq

def idxInsert (m : IdxMap) (k v : Nat) : InsertMode → Except IdxErr IdxMap
  | .upsert => .ok (idxSet m k v)
  | .insertOnly =>
    if (idxLookup m k).isSome then .error .keyAlreadyExists else .ok (idxSet m k v)
  | .updateOnly =>
    if (idxLookup m k).isSome then .ok (idxSet m k v) else .error .keyNotFound

/-! ## Raw byte I/O on the log file (`Pager.WriteAtOffset` / `Pager.ReadAtOffset`)

`WriteAtOffset` seeks to `offset` and writes `data` (a seek past end-of-file
followed by a write zero-fills the gap); `ReadAtOffset` seeks and reads
exactly `size` bytes, failing when fewer are available. -/

def writeAt (file : List Nat) (off : Nat) (data : List Nat) : List Nat :=
  file.take off ++ List.replicate (off - file.length) 0 ++ data ++ file.drop (off + data.length)

def readAt (file : List Nat) (off size : Nat) : Option (List Nat) :=
  if off + size ≤ file.length then some ((file.drop off).take size) else none

/-! ## The Store (`storage/storage.go`) -/

inductive StoreErr
  | keyNotFound
  | keyAlreadyExists
  | io
  deriving DecidableEq

def IdxErr.toStoreErr : IdxErr → StoreErr
  | .keyNotFound => .keyNotFound
  | .keyAlreadyExists => .keyAlreadyExists

structure Store where
  log : List Nat
  idx : IdxMap
  offset : Nat

/-- `Store.readRecord`: read the 9-byte header at `offset`, decode the two
length fields, read the remaining `keyLen + valueLen` bytes (Go adds the two
`uint32`s, wrapping modulo `2^32`), and deserialize the concatenation. -/
def Store.readRecord (s : Store) (off : Nat) : Option Record :=
  match readAt s.log off 9 with
  | none => none
  | some headerData =>
    let keyLen := readLe32 (headerData.drop 1)
    let valueLen := readLe32 (headerData.drop 5)
    match readAt s.log (off + 9) ((keyLen + valueLen) % 2 ^ 32) with
    | none => none
    | some remainingData => deserialize (headerData ++ remainingData)

/-- `Store.Put`: serialize an Insert record, write it at the current append
offset, upsert the index with the key's hash, advance the offset. -/
def Store.put (s : Store) (key value : List Nat) : Store × Option StoreErr :=
  let serialized := (Record.mk RecordTypeInsert key value).serialize
  let log := writeAt s.log s.offset serialized
  ({ log := log, idx := idxSet s.idx (hashKey key) s.offset,
     offset := s.offset + serialized.length }, none)

/-- `Store.Update`: like `Put` but `UpdateOnly`; on `ErrKeyNotFound` from the
index the record bytes are already in the file, yet neither the index nor the
append offset has changed. -/
def Store.update (s : Store) (key value : List Nat) : Store × Option StoreErr :=
  let serialized := (Record.mk RecordTypeInsert key value).serialize
  let log := writeAt s.log s.offset serialized
  match idxInsert s.idx (hashKey key) s.offset .updateOnly with
  | .error e => ({ s with log := log }, some e.toStoreErr)
  | .ok idx => ({ log := log, idx := idx, offset := s.offset + serialized.length }, none)

/-- `Store.Add`: like `Put` but `InsertOnly`; propagates `ErrKeyAlreadyExists`
the same way `Update` propagates `ErrKeyNotFound`. -/
def Store.add (s : Store) (key value : List Nat) : Store × Option StoreErr :=
  let serialized := (Record.mk RecordTypeInsert key value).serialize
  let log := writeAt s.log s.offset serialized
  match idxInsert s.idx (hashKey key) s.offset .insertOnly with
  | .error e => ({ s with log := log }, some e.toStoreErr)
  | .ok idx => ({ log := log, idx := idx, offset := s.offset + serialized.length }, none)

/-- `Store.Get`: search the index by key hash (`ErrKeyNotFound` becomes
`(nil, false, nil)`), read the record at the stored offset, suppress
tombstones.  Result: (value, found, error). -/
def Store.get (s : Store) (key : List Nat) : Option (List Nat) × Bool × Option StoreErr :=
  match idxLookup s.idx (hashKey key) with
  | none => (none, false, none)
  | some offset =>
    match s.readRecord offset with
    | none => (none, false, some .io)
    | some record =>
      if record.rtype = RecordTypeDelete then (none, false, none)
      else (some record.value, true, none)

/-- `Store.Delete`: no index entry → `(false, ok)` with no write; current
record already a tombstone → `(false, ok)` with no write; otherwise append a
Delete record, upsert the index to its offset and return `(true, ok)`.
Result: (state, existed, error). -/
def Store.delete (s : Store) (key : List Nat) : Store × Bool × Option StoreErr :=
  match idxLookup s.idx (hashKey key) with
  | none => (s, false, none)
  | some offset =>
    match s.readRecord offset with
    | none => (s, false, some .io)
    | some record =>
      if record.rtype = RecordTypeDelete then (s, false, none)
      else
        let serialized := (Record.mk RecordTypeDelete key []).serialize
        let log := writeAt s.log s.offset serialized
        ({ log := log, idx := idxSet s.idx (hashKey key) s.offset,
           offset := s.offset + serialized.length }, true, none)

/-- `recoverIndex`'s loop: read the record at `off`; on failure stop, leaving
the offset where the scan ended; on success `Upsert` the hash of the record's
key to the record's start offset and continue past it.  The loop terminates
because every record occupies at least 9 bytes; `fuel` bounds the iteration
count and is chosen large enough by `Store.recover`. -/
def replayAux : Nat → List Nat → Nat → IdxMap → IdxMap × Nat
  | 0, _, off, idx => (idx, off)
  | fuel + 1, log, off, idx =>
    match Store.readRecord ⟨log, [], 0⟩ off with
    | none => (idx, off)
    | some r => replayAux fuel log (off + r.serialize.length) (idxSet idx (hashKey r.key) off)

/-- `NewStore` without `clean.lock` (the crash path): the surviving log file
is scanned from offset 0 and the index is rebuilt by replaying every record
(`Store.recoverIndex`); the final scan position becomes the append offset. -/
def Store.recover (log : List Nat) : Store :=
  let (idx, off) := replayAux (log.length + 1) log 0 []
  ⟨log, idx, off⟩

/-- A fresh store on an empty data directory: empty log, fresh (empty) index,
append offset 0. -/
def Store.fresh : Store := ⟨[], [], 0⟩

/-! ## Operation sequences -/

inductive Op
  | put (key value : List Nat)
  | add (key value : List Nat)
  | update (key value : List Nat)
  | del (key : List Nat)
  deriving DecidableEq

def Store.applyOp (s : Store) : Op → Store × Option StoreErr
  | .put k v => s.put k v
  | .add k v => s.add k v
  | .update k v => s.update k v
  | .del k => let r := s.delete k; (r.1, r.2.2)

def Store.run (s : Store) : List Op → Store
  | [] => s
  | op :: ops => (s.applyOp op).1.run ops

/-- Every operation of the sequence succeeds (returns a `nil` error). -/
def Store.okRun (s : Store) : List Op → Bool
  | [] => true
  | op :: ops => (s.applyOp op).2 = none && (s.applyOp op).1.okRun ops

def Op.key : Op → List Nat
  | .put k _ => k
  | .add k _ => k
  | .update k _ => k
  | .del k => k

/-- The key and value of an operation are representable: their `u32` length
fields cannot overflow (together with the 9-byte header). -/
def Op.WF : Op → Prop
  | .put k v => k.length + v.length < 2 ^ 32
  | .add k v => k.length + v.length < 2 ^ 32
  | .update k v => k.length + v.length < 2 ^ 32
  | .del k => k.length < 2 ^ 32

/-- The value the spec assigns to key `k` after a sequence of (successful)
operations: the value of the most recent `put`/`add`/`update` on `k`, or
`none` when the most recent operation on `k` was a `delete` or `k` was never
operated on (spec P3). -/
def specStep (k : List Nat) (acc : Option (List Nat)) : Op → Option (List Nat)
  | .put k' v => if k' = k then some v else acc
  | .add k' v => if k' = k then some v else acc
  | .update k' v => if k' = k then some v else acc
  | .del k' => if k' = k then none else acc

def lastWriteFrom (cur : Option (List Nat)) (ops : List Op) (k : List Nat) : Option (List Nat) :=
  ops.foldl (specStep k) cur

def lastWrite (ops : List Op) (k : List Nat) : Option (List Nat) := lastWriteFrom none ops k

/-! ## The structure of a reachable log

A successful run appends one serialized record per mutating write.  `runRecs`
reconstructs that record list from the operation sequence; `logOf` is the log
file it produces; `lastRec` locates the most recent record whose key hashes
to `h` together with its start offset — exactly what the index stores. -/

/-- Well-formed for storage *and* retrieval: `Store.readRecord` adds the two
`u32` length fields in `uint32` arithmetic, so their sum must also fit. -/
def Record.SWF (r : Record) : Prop :=
  (r.rtype = RecordTypeInsert ∨ (r.rtype = RecordTypeDelete ∧ r.value = [])) ∧
    r.key.length + r.value.length < 2 ^ 32

def logOf (recs : List Record) : List Nat := (recs.map Record.serialize).flatten

def recSize (recs : List Record) : Nat := (recs.map fun r => r.serialize.length).sum

/-- Offset and record of the most recent record in `recs` whose key hashes to
`h`, when the records are laid out starting at byte offset `off`. -/
def lastRecFrom (h : Nat) : Nat → List Record → Option (Nat × Record)
  | _, [] => none
  | off, r :: rs =>
    match lastRecFrom h (off + r.serialize.length) rs with
    | some p => some p
    | none => if hashKey r.key = h then some (off, r) else none

def lastRec (recs : List Record) (h : Nat) : Option (Nat × Record) := lastRecFrom h 0 recs

/-- The state invariant of a store produced by a successful run: the log is
exactly the concatenation of the serialized records appended so far, the
append offset is its length, every record is well formed, and the index maps
each hash to the start offset of the most recent record whose key has that
hash. -/
structure Inv (recs : List Record) (s : Store) : Prop where
  log_eq : s.log = logOf recs
  off_eq : s.offset = recSize recs
  wf : ∀ r ∈ recs, r.SWF
  idx_eq : ∀ h, idxLookup s.idx h = (lastRec recs h).map Prod.fst

/-- The record a successful operation appends, reconstructed from the
operation sequence alone: mutations append their serialized record; a delete
appends a tombstone exactly when the current record for the key's hash is a
non-tombstone. -/
def recsStep (recs : List Record) : Op → List Record
  | .put k v => recs ++ [⟨RecordTypeInsert, k, v⟩]
  | .add k v => recs ++ [⟨RecordTypeInsert, k, v⟩]
  | .update k v => recs ++ [⟨RecordTypeInsert, k, v⟩]
  | .del k =>
    match lastRec recs (hashKey k) with
    | some (_, r) =>
      if r.rtype = RecordTypeDelete then recs else recs ++ [⟨RecordTypeDelete, k, []⟩]
    | none => recs

def runRecs (ops : List Op) : List Record := ops.foldl recsStep []

/-- What `Get` returns when the index resolves to a given record. -/
def specOf (o : Option (Nat × Record)) : Option (List Nat) × Bool × Option StoreErr :=
  match o with
  | none => (none, false, none)
  | some (_, r) =>
    if r.rtype = RecordTypeDelete then (none, false, none) else (some r.value, true, none)

instance (op : Op) : Decidable op.WF := by
  cases op <;> simp only [Op.WF] <;> infer_instance

/-! ## Relating the hash-level run to the key-level specification

The store resolves keys through their FNV-64a hash.  As long as no other key
in play shares the queried key's hash, the record the index designates for
`hashKey k` is exactly the spec-level "most recent write to `k`". -/

def RelSpec (k : List Nat) : Option (Nat × Record) → Option (List Nat) → Prop
  | none, none => True
  | some (_, r), spec =>
    r.key = k ∧
      ((r.rtype = RecordTypeInsert ∧ spec = some r.value) ∨
        (r.rtype = RecordTypeDelete ∧ r.value = [] ∧ spec = none))
  | _, _ => False

/-! ## Failed `Add`/`Update` leave the visible state unchanged (C10) -/

def Store.Reachable (s : Store) : Prop :=
  ∃ ops : List Op, (∀ op ∈ ops, op.WF) ∧ Store.fresh.okRun ops = true ∧ s = Store.fresh.run ops

/-! ## The paged file (`pager/pager.go`)

The cached pager: one OS file, an LRU write-back cache (front of the list is
most recently used), a free-list head, a page count and a closed flag.  The
mutex and the periodic-sync goroutine are not modelled (operations here are
sequential); `Flush` iterates a Go map whose order is unspecified, but dirty
pages occupy disjoint page-sized slots, so the model folds over the LRU list.
The OS file is `Option (List Nat)`: `none` once `file.Close()` has run, after
which seeks, reads and writes on it fail with an OS error (`IoError`). -/

def pageSize : Nat := 4096

def maxCacheSize : Nat := 128

inductive PagerErr
  | pagerClosed
  | pageOutOfRange
  | io
  deriving DecidableEq

structure Page where
  id : Nat
  data : List Nat
  deriving DecidableEq

structure CacheEntry where
  page : Page
  isDirty : Bool
  deriving DecidableEq

structure Pager where
  file : Option (List Nat)
  numPages : Nat
  freeListID : Nat
  cache : List CacheEntry
  isClosed : Bool
  deriving DecidableEq

def newPager (file : List Nat) : Pager :=
  ⟨some file, file.length / pageSize, 0, [], false⟩

def cacheFind (cache : List CacheEntry) (pid : Nat) : Option CacheEntry :=
  cache.find? (fun e => e.page.id = pid)

def cacheRemove (cache : List CacheEntry) (pid : Nat) : List CacheEntry :=
  cache.filter (fun e => ¬e.page.id = pid)

/-- `readFromDisk`: seek to `pid * PageSize` and `Read` into a zeroed 4 KiB
buffer; a read at or beyond end-of-file yields `io.EOF`, a shorter read fills
the prefix (the Go code checks only the error, not the count). -/
def readFromDisk (file : List Nat) (pid : Nat) : Except PagerErr Page :=
  if file.length ≤ pid * pageSize then .error .io
  else
    .ok ⟨pid, (file.drop (pid * pageSize)).take pageSize ++
      List.replicate (pageSize - ((file.drop (pid * pageSize)).take pageSize).length) 0⟩

/-- `writeToDisk`: seek to the page slot and write the page bytes. -/
def writeToDisk (file : List Nat) (p : Page) : List Nat :=
  writeAt file (p.id * pageSize) p.data

/-- `evict`: drop the least-recently-used entry, writing it to disk first if
dirty. -/
def Pager.evict (p : Pager) : Except PagerErr Pager :=
  match p.cache.getLast? with
  | none => .ok p
  | some entry =>
    if entry.isDirty then
      match p.file with
      | none => .error .io
      | some f =>
        .ok { p with file := some (writeToDisk f entry.page), cache := p.cache.dropLast }
    else .ok { p with cache := p.cache.dropLast }

/-- `ReadPage`: fail on a closed pager; on a cache hit move the entry to the
LRU front; otherwise check the page bound, read from disk, insert clean, and
evict if the cache overflows. -/
def Pager.readPage (p : Pager) (pid : Nat) : Except PagerErr (Page × Pager) :=
  if p.isClosed then .error .pagerClosed
  else
    match cacheFind p.cache pid with
    | some entry =>
      .ok (entry.page, { p with cache := entry :: cacheRemove p.cache pid })
    | none =>
      if p.numPages ≤ pid then .error .pageOutOfRange
      else
        match p.file with
        | none => .error .io
        | some f =>
          match readFromDisk f pid with
          | .error e => .error e
          | .ok page =>
            let p2 : Pager := { p with cache := ⟨page, false⟩ :: p.cache }
            if maxCacheSize < p2.cache.length then
              match p2.evict with
              | .error e => .error e
              | .ok p3 => .ok (page, p3)
            else .ok (page, p2)

/-- `WritePage`: fail on a closed pager; update or insert the cache entry at
the LRU front, mark it dirty, evict on overflow.  The write does not go
through to disk here. -/
def Pager.writePage (p : Pager) (page : Page) : Except PagerErr Pager :=
  if p.isClosed then .error .pagerClosed
  else
    let p2 : Pager := { p with cache := ⟨page, true⟩ :: cacheRemove p.cache page.id }
    if maxCacheSize < p2.cache.length then p2.evict else .ok p2

/-- Zero a cached page's bytes in place (Go zeroes the `*Page` that aliases
the cache entry). -/
def cacheZero (cache : List CacheEntry) (pid : Nat) : List CacheEntry :=
  cache.map fun e =>
    if e.page.id = pid then ⟨⟨pid, List.replicate pageSize 0⟩, e.isDirty⟩ else e

/-- `NewPage`: pop the free-list head if nonzero (the popped page's first four
bytes hold the next head; the returned page is zeroed, aliasing the cache
entry), else grow the file by one page through `WritePage`. -/
def Pager.newPage (p : Pager) : Except PagerErr (Page × Pager) :=
  if p.isClosed then .error .pagerClosed
  else if p.freeListID ≠ 0 then
    match p.readPage p.freeListID with
    | .error e => .error e
    | .ok (page, p2) =>
      let nextID := readLe32 page.data
      .ok (⟨page.id, List.replicate pageSize 0⟩,
        { p2 with freeListID := nextID, cache := cacheZero p2.cache page.id })
  else
    let page : Page := ⟨p.numPages, List.replicate pageSize 0⟩
    match p.writePage page with
    | .error e => .error e
    | .ok p2 => .ok (page, { p2 with numPages := p.numPages + 1 })

/-- `WriteAtOffset`: raw byte write bypassing the cache, synced before
returning.  There is no closed-pager check: after `Close` the seek/write on
the closed OS file surfaces an I/O error instead. -/
def Pager.writeAtOffset (p : Pager) (off : Nat) (data : List Nat) : Except PagerErr Pager :=
  match p.file with
  | none => .error .io
  | some f => .ok { p with file := some (writeAt f off data) }

/-- `ReadAtOffset`: raw byte read bypassing the cache; a short read is an
error.  No closed-pager check, as in `WriteAtOffset`. -/
def Pager.readAtOffset (p : Pager) (off size : Nat) : Except PagerErr (List Nat) :=
  match p.file with
  | none => .error .io
  | some f =>
    match readAt f off size with
    | none => .error .io
    | some d => .ok d

/-- `GetNumPages` returns 0 — not an error — on a closed pager. -/
def Pager.getNumPages (p : Pager) : Nat :=
  if p.isClosed then 0 else p.numPages

def Pager.getSize (p : Pager) : Except PagerErr Nat :=
  if p.isClosed then .error .pagerClosed
  else
    match p.file with
    | none => .error .io
    | some f => .ok f.length

/-- `GetFreeListID` returns 0 — not an error — on a closed pager. -/
def Pager.getFreeListID (p : Pager) : Nat :=
  if p.isClosed then 0 else p.freeListID

/-- `SetFreeListID` silently does nothing on a closed pager. -/
def Pager.setFreeListID (p : Pager) (pid : Nat) : Pager :=
  if p.isClosed then p else { p with freeListID := pid }

/-- `FreePage`: thread the old free-list head through the page body and make
the page the new head. -/
def Pager.freePage (p : Pager) (pid : Nat) : Except PagerErr Pager :=
  if p.isClosed then .error .pagerClosed
  else
    let page : Page := ⟨pid, le32 p.freeListID ++ List.replicate (pageSize - 4) 0⟩
    match p.writePage page with
    | .error e => .error e
    | .ok p2 => .ok { p2 with freeListID := pid }

/-- `Flush`: write every dirty cache entry to disk (a failed page write is
logged and skipped in Go; in the model disk writes on an open file cannot
fail), clear the dirty flags, sync. -/
def Pager.flush (p : Pager) : Except PagerErr Pager :=
  if p.isClosed then .error .pagerClosed
  else
    match p.file with
    | none => .error .io
    | some f =>
      .ok { p with
        file := some (p.cache.foldl (fun acc e => if e.isDirty then writeToDisk acc e.page else acc) f),
        cache := p.cache.map fun e => ⟨e.page, false⟩ }

/-- `Close`: a second close is a no-op returning success; otherwise stop the
sync worker, flush, mark closed and close the OS file. -/
def Pager.close (p : Pager) : Except PagerErr Pager :=
  if p.isClosed then .ok p
  else
    match p.flush with
    | .error e => .error e
    | .ok p2 => .ok { p2 with isClosed := true, file := none }

/-! ## The B+tree index over byte-string keys (`index/index.go`, `insert.go`,
`delete.go`, `cursor.go`)

Nodes are modelled at the decoded level: the page store maps a PageID to the
`node` that `writeNode` last serialized there (`readNode`'s CRC check and the
slotted-page byte layout are not the subject of any claim; a page never
written as a node reads back as `none`, as a CRC failure would).  The free
list is the chain threaded through freed pages; `syncMetaPage` persists the
root and free-list head into page 0, both of which the model keeps directly
in `Index`/`NPager`, so it is a no-op here. -/

inductive BNodeType
  | internal
  | leaf
  deriving DecidableEq

structure BNode where
  nodeType : BNodeType
  keys : List (List Nat)
  values : List Nat
  children : List Nat
  next : Nat
  deriving DecidableEq

def newLeafNode : BNode := ⟨.leaf, [], [], [], 0⟩

def newInternalNode : BNode := ⟨.internal, [], [], [], 0⟩

structure NPager where
  pages : List (Nat × BNode)
  numPages : Nat
  freeList : List Nat
  deriving DecidableEq

def npLookup : List (Nat × BNode) → Nat → Option BNode
  | [], _ => none
  | (p, n) :: rest, pid => if p = pid then some n else npLookup rest pid

def NPager.readNode (pg : NPager) (pid : Nat) : Option BNode := npLookup pg.pages pid

def NPager.writeNode (pg : NPager) (pid : Nat) (n : BNode) : NPager :=
  { pg with pages := (pid, n) :: pg.pages }

/-- `Pager.NewPage` at node granularity: reuse the free-list head when there
is one (reading its body yields the next head, which our explicit chain
models), otherwise extend the file by one page. -/
def NPager.newPage (pg : NPager) : Nat × NPager :=
  match pg.freeList with
  | pid :: rest => (pid, { pg with freeList := rest })
  | [] => (pg.numPages, { pg with numPages := pg.numPages + 1 })

/-- `Pager.FreePage`: the freed page becomes the new free-list head. -/
def NPager.freePage (pg : NPager) (pid : Nat) : NPager :=
  { pg with freeList := pid :: pg.freeList }

structure Index where
  pager : NPager
  root : Nat
  deriving DecidableEq

def Index.readNode (idx : Index) (pid : Nat) : Option BNode := idx.pager.readNode pid

/-- `NewIndex` on an empty pager: page 0 is the meta page, page 1 the empty
leaf root. -/
def newIndex : Index := ⟨⟨[(1, newLeafNode)], 2, []⟩, 1⟩

/-! ### Key comparison and search

`bytes.Compare` is lexicographic byte order; `bytesLt a b` means `a < b`.
Go's `sort.Search` performs binary search for the smallest index satisfying a
monotone predicate; over keys sorted per invariant K every predicate used
here is monotone, and the smallest satisfying index is what `lowerBound`
computes by scanning. -/

def bytesLt : List Nat → List Nat → Bool
  | [], [] => false
  | [], _ :: _ => true
  | _ :: _, [] => false
  | a :: as, b :: bs => if a < b then true else if b < a then false else bytesLt as bs

def lowerBound (keys : List (List Nat)) (pred : List Nat → Bool) : Nat :=
  match keys with
  | [] => 0
  | k :: rest => if pred k then 0 else 1 + lowerBound rest pred

/-! ### Sizes and thresholds -/

def headerSize : Nat := 16

def slotSize : Nat := 2

def valueSize : Nat := 8

def childSize : Nat := 4

/-- Modelled from the spec: `node.calculateSize`, `splitThreshold` and
`mergeThreshold` are referenced by `insert.go` and `delete.go` but their
definitions are not among the repository sources.  Spec §4.2.6:
`calculate_size(node)` = headerSize + Σ len(keys) + numSlots·slotSize +
pointer-section size (leaves: 8 bytes per value, internals: 4 bytes per
child, `numSlots + 1` children). -/
def BNode.calculateSize (n : BNode) : Nat :=
  headerSize + (n.keys.map List.length).sum + n.keys.length * slotSize +
    (if n.nodeType = .leaf then n.keys.length * valueSize else (n.keys.length + 1) * childSize)

/-- Modelled from the spec: split when the node's size exceeds ~P/2. -/
def splitThreshold : Nat := pageSize / 2

/-- Modelled from the spec: rebalance when a node's size drops below ~P/4. -/
def mergeThreshold : Nat := pageSize / 4

inductive IErr
  | keyNotFound
  | keyAlreadyExists
  | pageFault
  deriving DecidableEq

def insertAt {α : Type} (l : List α) (i : Nat) (a : α) : List α :=
  l.take i ++ a :: l.drop i

def removeAt {α : Type} (l : List α) (i : Nat) : List α :=
  l.take i ++ l.drop (i + 1)

/-- `Index.splitNode`: allocate a sibling page; at `mid = ⌊N/2⌋` a leaf moves
`keys[mid..]`/`values[mid..]` to the sibling (which inherits `next`, while the
original's `next` becomes the sibling's id) and promotes a copy of the
sibling's first key; an internal node promotes `keys[mid]`, which is dropped
from both halves, moving `keys[mid+1..]`/`children[mid+1..]` right.  Both
halves are written back. -/
def splitNode (pg : NPager) (pid : Nat) (n : BNode) :
    Except IErr (NPager × Option (List Nat × Nat)) :=
  let alloc := pg.newPage
  let sid := alloc.1
  let pg1 := alloc.2
  let mid := n.keys.length / 2
  match n.nodeType with
  | .leaf =>
    let sibling : BNode := ⟨.leaf, n.keys.drop mid, n.values.drop mid, [], n.next⟩
    let left : BNode := ⟨.leaf, n.keys.take mid, n.values.take mid, [], sid⟩
    let promoted := (n.keys.drop mid).headD []
    .ok ((pg1.writeNode pid left).writeNode sid sibling, some (promoted, sid))
  | .internal =>
    let sibling : BNode := ⟨.internal, n.keys.drop (mid + 1), [], n.children.drop (mid + 1), 0⟩
    let left : BNode := ⟨.internal, n.keys.take mid, [], n.children.take (mid + 1), 0⟩
    let promoted := n.keys.getD mid []
    .ok ((pg1.writeNode pid left).writeNode sid sibling, some (promoted, sid))

/-- `Index.insert` (the recursion): descend to the leaf choosing the smallest
`i` with `keys[i] > key`; at the leaf an existing key fails `InsertOnly` or is
overwritten in place, a missing key fails `UpdateOnly` or is inserted sorted;
oversize nodes split and hand the promoted separator up, which the parent
inserts before checking its own size.  `fuel` bounds the descent depth. -/
def insertGo : Nat → NPager → Nat → List Nat → Nat → InsertMode →
    Except IErr (NPager × Option (List Nat × Nat))
  | 0, _, _, _, _, _ => .error .pageFault
  | fuel + 1, pg, pid, key, value, mode =>
    match pg.readNode pid with
    | none => .error .pageFault
    | some n =>
      if n.nodeType = .leaf then
        let i := lowerBound n.keys (fun kj => !bytesLt kj key)
        if i < n.keys.length ∧ n.keys.getD i [] = key then
          if mode = .insertOnly then .error .keyAlreadyExists
          else .ok (pg.writeNode pid { n with values := n.values.set i value }, none)
        else if mode = .updateOnly then .error .keyNotFound
        else
          let n2 := { n with keys := insertAt n.keys i key, values := insertAt n.values i value }
          if splitThreshold < n2.calculateSize then splitNode pg pid n2
          else .ok (pg.writeNode pid n2, none)
      else
        let i := lowerBound n.keys (fun kj => bytesLt key kj)
        match insertGo fuel pg (n.children.getD i 0) key value mode with
        | .error e => .error e
        | .ok (pg2, none) => .ok (pg2, none)
        | .ok (pg2, some (pk, sid)) =>
          let n2 :=
            { n with keys := insertAt n.keys i pk, children := insertAt n.children (i + 1) sid }
          if splitThreshold < n2.calculateSize then splitNode pg2 pid n2
          else .ok (pg2.writeNode pid n2, none)

/-- `Index.Insert`: run the recursion from the root; a promotion out of the
root allocates a new internal root with the two halves as children and syncs
the meta page. -/
def Index.insert (fuel : Nat) (idx : Index) (key : List Nat) (value : Nat)
    (mode : InsertMode) : Except IErr Index :=
  match insertGo fuel idx.pager idx.root key value mode with
  | .error e => .error e
  | .ok (pg, none) => .ok { idx with pager := pg }
  | .ok (pg, some (pk, sid)) =>
    let alloc := pg.newPage
    let newRoot : BNode := ⟨.internal, [pk], [], [idx.root, sid], 0⟩
    .ok ⟨alloc.2.writeNode alloc.1 newRoot, alloc.1⟩

/-- `Index.Search`: descend to the leaf; binary-search for equality. -/
def searchGo : Nat → NPager → Nat → List Nat → Except IErr Nat
  | 0, _, _, _ => .error .pageFault
  | fuel + 1, pg, pid, key =>
    match pg.readNode pid with
    | none => .error .pageFault
    | some n =>
      if n.nodeType = .internal then
        searchGo fuel pg (n.children.getD (lowerBound n.keys (fun kj => bytesLt key kj)) 0) key
      else
        let i := lowerBound n.keys (fun kj => !bytesLt kj key)
        if i < n.keys.length ∧ n.keys.getD i [] = key then .ok (n.values.getD i 0)
        else .error .keyNotFound

def Index.search (fuel : Nat) (idx : Index) (key : List Nat) : Except IErr Nat :=
  if idx.root = 0 then .error .keyNotFound
  else searchGo fuel idx.pager idx.root key

/-! ### Delete with underflow repair (`delete.go`) -/

/-- `Index.borrowLeft`: move the left sibling's last entry to the front of the
underflowed child.  For leaves the parent separator becomes the child's new
first key; for internals the old separator rotates down into the child, the
left sibling's last key rotates up into the parent, and the left sibling's
last child pointer moves across. -/
def borrowLeft (parent left child : BNode) (sepKeyIdx : Nat) : BNode × BNode × BNode :=
  let leftIdx := left.keys.length - 1
  if child.nodeType = .leaf then
    let child2 : BNode :=
      { child with
        keys := left.keys.getD leftIdx [] :: child.keys
        values := left.values.getD leftIdx 0 :: child.values }
    let left2 : BNode :=
      { left with
        keys := left.keys.take leftIdx
        values := left.values.take leftIdx }
    let parent2 : BNode := { parent with keys := parent.keys.set sepKeyIdx (child2.keys.getD 0 []) }
    (parent2, left2, child2)
  else
    let oldSep := parent.keys.getD sepKeyIdx []
    let newSep := left.keys.getD leftIdx []
    let child2 : BNode :=
      { child with
        keys := oldSep :: child.keys
        children := left.children.getD (leftIdx + 1) 0 :: child.children }
    let left2 : BNode :=
      { left with
        keys := left.keys.take leftIdx
        children := left.children.take (leftIdx + 1) }
    let parent2 : BNode := { parent with keys := parent.keys.set sepKeyIdx newSep }
    (parent2, left2, child2)

/-- `Index.borrowRight`: symmetric to `borrowLeft`, moving the right sibling's
first entry to the back of the child. -/
def borrowRight (parent right child : BNode) (sepKeyIdx : Nat) : BNode × BNode × BNode :=
  if child.nodeType = .leaf then
    let child2 : BNode :=
      { child with
        keys := child.keys ++ [right.keys.getD 0 []]
        values := child.values ++ [right.values.getD 0 0] }
    let right2 : BNode :=
      { right with
        keys := right.keys.drop 1
        values := right.values.drop 1 }
    let parent2 : BNode := { parent with keys := parent.keys.set sepKeyIdx (right2.keys.getD 0 []) }
    (parent2, right2, child2)
  else
    let oldSep := parent.keys.getD sepKeyIdx []
    let newSep := right.keys.getD 0 []
    let child2 : BNode :=
      { child with
        keys := child.keys ++ [oldSep]
        children := child.children ++ [right.children.getD 0 0] }
    let right2 : BNode :=
      { right with
        keys := right.keys.drop 1
        children := right.children.drop 1 }
    let parent2 : BNode := { parent with keys := parent.keys.set sepKeyIdx newSep }
    (parent2, right2, child2)

/-- `Index.merge`: the left node absorbs the right one.  Leaves concatenate
keys/values and the left inherits the right's `next`; internals pull the
parent separator down between their keys and concatenate children.  The
separator and the right child pointer leave the parent. -/
def mergeNodes (parent left right : BNode) (sepKeyIdx : Nat) : BNode × BNode :=
  let left2 : BNode :=
    if left.nodeType = .leaf then
      { left with
        keys := left.keys ++ right.keys
        values := left.values ++ right.values
        next := right.next }
    else
      { left with
        keys := left.keys ++ parent.keys.getD sepKeyIdx [] :: right.keys
        children := left.children ++ right.children }
  let parent2 : BNode :=
    { parent with
      keys := removeAt parent.keys sepKeyIdx
      children := removeAt parent.children (sepKeyIdx + 1) }
  (parent2, left2)

/-- The merge stage of `Index.fixUnderflow`: merge into the left sibling when
one exists (freeing the child's page), else absorb the right sibling (freeing
its page); the meta page is synced along the way. -/
def fixMergeStep (pg : NPager) (parentID childID : Nat) (parentNode childNode : BNode)
    (childIdx : Nat) : Except IErr NPager :=
  if 0 < childIdx then
    let leftID := parentNode.children.getD (childIdx - 1) 0
    match pg.readNode leftID with
    | none => .error .pageFault
    | some leftNode =>
      let res := mergeNodes parentNode leftNode childNode (childIdx - 1)
      .ok (((pg.freePage childID).writeNode leftID res.2).writeNode parentID res.1)
  else
    let rightID := parentNode.children.getD (childIdx + 1) 0
    match pg.readNode rightID with
    | none => .error .pageFault
    | some rightNode =>
      let res := mergeNodes parentNode childNode rightNode childIdx
      .ok (((pg.freePage rightID).writeNode parentID res.1).writeNode childID res.2)

/-- The borrow-right stage of `Index.fixUnderflow`. -/
def fixTryRight (pg : NPager) (parentID childID : Nat) (parentNode childNode : BNode)
    (childIdx : Nat) : Except IErr NPager :=
  if childIdx < parentNode.children.length - 1 then
    let rightID := parentNode.children.getD (childIdx + 1) 0
    match pg.readNode rightID with
    | none => .error .pageFault
    | some rightNode =>
      if mergeThreshold < rightNode.calculateSize then
        let res := borrowRight parentNode rightNode childNode childIdx
        .ok (((pg.writeNode rightID res.2.1).writeNode parentID res.1).writeNode childID res.2.2)
      else fixMergeStep pg parentID childID parentNode childNode childIdx
  else fixMergeStep pg parentID childID parentNode childNode childIdx

/-- `Index.fixUnderflow`: locate the child among the parent's children, then
try borrow-left (left sibling above `mergeThreshold`), borrow-right, merge
into the left sibling, or absorb the right sibling. -/
def fixUnderflow (pg : NPager) (parentID childID : Nat) : Except IErr NPager :=
  match pg.readNode parentID with
  | none => .error .pageFault
  | some parentNode =>
    match pg.readNode childID with
    | none => .error .pageFault
    | some childNode =>
      match parentNode.children.findIdx? (fun c => c = childID) with
      | none => .error .keyNotFound
      | some childIdx =>
        if 0 < childIdx then
          let leftID := parentNode.children.getD (childIdx - 1) 0
          match pg.readNode leftID with
          | none => .error .pageFault
          | some leftNode =>
            if mergeThreshold < leftNode.calculateSize then
              let res := borrowLeft parentNode leftNode childNode (childIdx - 1)
              .ok (((pg.writeNode leftID res.2.1).writeNode parentID res.1).writeNode
                childID res.2.2)
            else fixTryRight pg parentID childID parentNode childNode childIdx
        else fixTryRight pg parentID childID parentNode childNode childIdx

/-- `Index.delete` (the recursion): descend as in search; remove the entry
from the leaf (else `KeyNotFound`) and write it back; a non-root node that
fell below `mergeThreshold` is repaired at its parent; on the way back up the
visited child is re-read and repaired the same way. -/
def deleteGo : Nat → NPager → Nat → Nat → List Nat → Except IErr NPager
  | 0, _, _, _, _ => .error .pageFault
  | fuel + 1, pg, parentID, pid, key =>
    match pg.readNode pid with
    | none => .error .pageFault
    | some n =>
      if n.nodeType = .leaf then
        let i := lowerBound n.keys (fun kj => !bytesLt kj key)
        if i < n.keys.length ∧ n.keys.getD i [] = key then
          let n2 := { n with keys := removeAt n.keys i, values := removeAt n.values i }
          let pg2 := pg.writeNode pid n2
          if parentID ≠ 0 ∧ n2.calculateSize < mergeThreshold then fixUnderflow pg2 parentID pid
          else .ok pg2
        else .error .keyNotFound
      else
        let i := lowerBound n.keys (fun kj => bytesLt key kj)
        let childID := n.children.getD i 0
        match deleteGo fuel pg pid childID key with
        | .error e => .error e
        | .ok pg2 =>
          match pg2.readNode childID with
          | none => .error .pageFault
          | some child =>
            if child.calculateSize < mergeThreshold then fixUnderflow pg2 pid childID
            else .ok pg2

/-- `Index.Delete`: run the recursion from the root; an internal root left
with zero keys collapses into its sole child (meta page synced). -/
def Index.delete (fuel : Nat) (idx : Index) (key : List Nat) : Except IErr Index :=
  if idx.root = 0 then .error .keyNotFound
  else
    match deleteGo fuel idx.pager 0 idx.root key with
    | .error e => .error e
    | .ok pg =>
      match pg.readNode idx.root with
      | none => .error .pageFault
      | some root =>
        if root.nodeType = .internal ∧ root.keys.length = 0 then
          if 0 < root.children.length then .ok ⟨pg, root.children.getD 0 0⟩
          else .ok ⟨pg, 0⟩
        else .ok ⟨pg, idx.root⟩

/-! ### Range cursor (`cursor.go`) -/

structure Cursor where
  pageID : Nat
  endKey : Option (List Nat)
  keyNum : Nat
  isEnd : Bool
  deriving DecidableEq

def descendFirst : Nat → NPager → Nat → Except IErr (Nat × BNode)
  | 0, _, _ => .error .pageFault
  | fuel + 1, pg, pid =>
    match pg.readNode pid with
    | none => .error .pageFault
    | some n =>
      if n.nodeType = .internal then descendFirst fuel pg (n.children.getD 0 0)
      else .ok (pid, n)

def descendToKey : Nat → NPager → Nat → List Nat → Except IErr (Nat × BNode)
  | 0, _, _, _ => .error .pageFault
  | fuel + 1, pg, pid, startKey =>
    match pg.readNode pid with
    | none => .error .pageFault
    | some n =>
      if n.nodeType = .internal then
        descendToKey fuel pg
          (n.children.getD (lowerBound n.keys (fun kj => bytesLt startKey kj)) 0) startKey
      else .ok (pid, n)

/-- `Index.NewCursor`: an empty index yields a finished cursor.  Without a
start key descend the left spine; with one, descend choosing the smallest
`i` with `keys[i] > startKey`, then position at the smallest slot with
`key ≥ startKey`, hopping to the next leaf if that overshoots.  The cursor is
finished when its page id is 0. -/
def Index.newCursor (fuel : Nat) (idx : Index) (startKey endKey : Option (List Nat)) :
    Except IErr Cursor :=
  if idx.root = 0 then .ok ⟨0, endKey, 0, true⟩
  else
    match startKey with
    | none =>
      match descendFirst fuel idx.pager idx.root with
      | .error e => .error e
      | .ok (pid, _) => .ok ⟨pid, endKey, 0, decide (pid = 0)⟩
    | some sk =>
      match descendToKey fuel idx.pager idx.root sk with
      | .error e => .error e
      | .ok (pid, n) =>
        let keyNum := lowerBound n.keys (fun kj => !bytesLt kj sk)
        if n.keys.length ≤ keyNum then .ok ⟨n.next, endKey, 0, decide (n.next = 0)⟩
        else .ok ⟨pid, endKey, keyNum, decide (pid = 0)⟩

/-- `Cursor.Next`: loop — at a slot past the last key hop to the `next` leaf
(page 0 finishes the cursor); a current key at or beyond `endKey` finishes
it; otherwise emit the slot and advance. -/
def cursorNext : Nat → Index → Cursor → Except IErr (Option (List Nat × Nat) × Cursor)
  | 0, _, _ => .error .pageFault
  | fuel + 1, idx, c =>
    if c.isEnd then .ok (none, c)
    else
      match idx.readNode c.pageID with
      | none => .error .pageFault
      | some n =>
        if c.keyNum < n.keys.length then
          let key := n.keys.getD c.keyNum []
          match c.endKey with
          | some ek =>
            if !bytesLt key ek then .ok (none, { c with isEnd := true })
            else .ok (some (key, n.values.getD c.keyNum 0), { c with keyNum := c.keyNum + 1 })
          | none => .ok (some (key, n.values.getD c.keyNum 0), { c with keyNum := c.keyNum + 1 })
        else if n.next = 0 then .ok (none, ⟨0, c.endKey, 0, true⟩)
        else cursorNext fuel idx ⟨n.next, c.endKey, 0, c.isEnd⟩

/-- Drain the cursor by calling `Next` until it signals the end, collecting
the emitted pairs (as the tests do). -/
def cursorToList : Nat → Index → Cursor → Except IErr (List (List Nat × Nat))
  | 0, _, _ => .error .pageFault
  | fuel + 1, idx, c =>
    match cursorNext (fuel + 1) idx c with
    | .error e => .error e
    | .ok (none, _) => .ok []
    | .ok (some kv, c2) =>
      match cursorToList fuel idx c2 with
      | .error e => .error e
      | .ok rest => .ok (kv :: rest)

/-- The (key, value) pairs stored in a list of leaves, in chain order. -/
def chEntries (ch : List (Nat × BNode)) : List (List Nat × Nat) :=
  (ch.map (fun pn => pn.2.keys.zip pn.2.values)).join

/-- Invariant N, the data of the leaf chain: consecutive `next` links, a
terminal 0, live pages, leaf nodes, aligned values. -/
def chainWF (pg : NPager) : List (Nat × BNode) → Prop
  | [] => True
  | (p, n) :: rest =>
    p ≠ 0 ∧ pg.readNode p = some n ∧ n.nodeType = .leaf ∧
      n.values.length = n.keys.length ∧
      n.next = (match rest with | [] => 0 | (q, _) :: _ => q) ∧ chainWF pg rest

def okLo (lo : Option (List Nat)) (k : List Nat) : Prop :=
  ∀ l, lo = some l → bytesLt k l = false

def okHi (hi : Option (List Nat)) (k : List Nat) : Prop :=
  ∀ e, hi = some e → bytesLt k e = true

/-- Separator discipline of one internal node, generic in the subtree
predicate `T lo hi ch`: children interleave with separators, child `j`
covering `[sep j-1, sep j)`, and the subtree's leaf chain fragment is the
concatenation of the children's. -/
def ChWFgen (T : Nat → Option (List Nat) → Option (List Nat) → List (Nat × BNode) → Prop) :
    List Nat → Option (List Nat) → List (List Nat) → Option (List Nat) →
    List (Nat × BNode) → Prop
  | [c], lo, [], hi, ch => T c lo hi ch
  | c :: c2 :: cs, lo, s :: ss, hi, ch =>
    ∃ ch1 ch2, ch = ch1 ++ ch2 ∧ okLo lo s ∧ okHi hi s ∧ T c lo (some s) ch1 ∧
      ChWFgen T (c2 :: cs) (some s) ss hi ch2
  | _, _, _, _, _ => False

/-- Invariant K at height `h`: the subtree rooted at page `pid` is a tree of
live pages whose keys lie in `[lo, hi)`, leaves sorted, internal nodes
respecting the separator discipline; `ch` is its leaf fragment left to
right. -/
def TWF (pg : NPager) (h : Nat) (pid : Nat) (lo hi : Option (List Nat))
    (ch : List (Nat × BNode)) : Prop :=
  match h with
  | 0 => False
  | h + 1 =>
    pid ≠ 0 ∧ ∃ n, pg.readNode pid = some n ∧
      ((n.nodeType = .leaf ∧ ch = [(pid, n)] ∧ n.values.length = n.keys.length ∧
          n.keys.Pairwise (fun a b => bytesLt a b = true) ∧
          (∀ k ∈ n.keys, okLo lo k ∧ okHi hi k)) ∨
        (n.nodeType = .internal ∧
          ChWFgen (fun c lo2 hi2 ch2 => TWF pg h c lo2 hi2 ch2) n.children lo n.keys hi ch))

/-- The entries still ahead of a cursor sitting at slot `t` of the first
leaf of `ch`. -/
def remEntries : List (Nat × BNode) → Nat → List (List Nat × Nat)
  | [], _ => []
  | (_, n) :: rest, t => (n.keys.zip n.values).drop t ++ chEntries rest

/-- Skip leaves with no slot left, as `Cursor.Next`'s leaf-hopping loop
does; returns the leaf holding the next slot, the chain after it, and the
slot number. -/
def skipEmpty : List (Nat × BNode) → Nat → Option ((Nat × BNode) × List (Nat × BNode) × Nat)
  | [], _ => none
  | (p, n) :: rest, t =>
    if t < n.keys.length then some ((p, n), (rest, t)) else skipEmpty rest 0

/-- Cut a scan at the exclusive end key. -/
def ekTake (ek : Option (List Nat)) (l : List (List Nat × Nat)) : List (List Nat × Nat) :=
  match ek with
  | none => l
  | some e => l.takeWhile (fun kv => bytesLt kv.1 e)

/-- `startKey ≤ k < endKey`, each bound only when present. -/
def inRangeB (sk ek : Option (List Nat)) (k : List Nat) : Bool :=
  (match sk with | none => true | some s => !bytesLt k s) &&
    (match ek with | none => true | some e => bytesLt k e)

/-- The index invariant C3 assumes of a reachable state: either the empty
index, or a tree (invariant K) whose leaf fragment is exactly the chain
(invariant N). -/
def IndexWF (idx : Index) (h : Nat) (ch : List (Nat × BNode)) : Prop :=
  (idx.root = 0 ∧ ch = []) ∨
    (TWF idx.pager h idx.root none none ch ∧ chainWF idx.pager ch)

/-- What every subtree guarantees about its leaf fragment: keys bounded by
`[lo, hi)`, entries strictly sorted, at least one leaf, leaves internally
sorted and aligned. -/
def twfPack (lo hi : Option (List Nat)) (ch : List (Nat × BNode)) : Prop :=
  (∀ kv ∈ chEntries ch, okLo lo kv.1 ∧ okHi hi kv.1) ∧
    (chEntries ch).Pairwise (fun a b => bytesLt a.1 b.1 = true) ∧
    ch ≠ [] ∧
    (∀ pn ∈ ch, pn.2.keys.Pairwise (fun a b => bytesLt a b = true) ∧
      pn.2.values.length = pn.2.keys.length)

def witLeaf1 : BNode := ⟨.leaf, [[1]], [10], [], 2⟩

def witLeaf2 : BNode := ⟨.leaf, [[2], [3]], [20, 30], [], 0⟩

def witRoot : BNode := ⟨.internal, [[2]], [], [1, 2], 0⟩

def witIdx : Index := ⟨⟨[(1, witLeaf1), (2, witLeaf2), (3, witRoot)], 4, []⟩, 3⟩

def witCh : List (Nat × BNode) := [(1, witLeaf1), (2, witLeaf2)]

/-- The traversal the claim describes: start at a leaf page and follow `next`
pointers until 0, collecting each leaf's entries (modelled from the claim's
words; `Cursor.Next` performs this same hop via `n.next`). -/
def chainCollect (pg : NPager) : Nat → Nat → List (List Nat × Nat)
  | 0, _ => []
  | fuel + 1, pid =>
    if pid = 0 then []
    else
      match pg.readNode pid with
      | none => []
      | some n => n.keys.zip n.values ++ chainCollect pg fuel n.next

/-! ## Theorems -/

theorem le32_length (n : Nat) : (le32 n).length = 4 := rfl

theorem readLe32_le32_append (n : Nat) (rest : List Nat) :
    readLe32 (le32 n ++ rest) = n % 2 ^ 32 := by
  simp only [le32, readLe32, List.cons_append, List.getD, List.get?_eq_getElem?,
    List.getElem?_cons_zero, List.getElem?_cons_succ, Option.getD_some, List.nil_append]
  omega

theorem Record.serialize_length (r : Record) :
    r.serialize.length = 9 + r.key.length + r.value.length := by
  simp only [Record.serialize, List.length_cons, List.length_append, le32_length]
  omega

theorem deserialize_serialize (r : Record) (h : r.WF) : deserialize r.serialize = some r := by
  obtain ⟨ht, hk, hv⟩ := h
  have hlen := Record.serialize_length r
  have hty : r.rtype % 256 = r.rtype := by
    rcases ht with h | ⟨h, _⟩ <;> simp [h, RecordTypeInsert, RecordTypeDelete]
  have hdrop1 : r.serialize.drop 1 = le32 r.key.length ++ (le32 r.value.length ++ r.key ++ r.value) := by
    simp [Record.serialize]
  have hdrop5 : r.serialize.drop 5 = le32 r.value.length ++ (r.key ++ r.value) := by
    simp [Record.serialize, le32, List.drop]
  have hdrop9 : r.serialize.drop 9 = r.key ++ r.value := by
    simp [Record.serialize, le32, List.drop]
  have hkeyLen : readLe32 (r.serialize.drop 1) = r.key.length := by
    rw [hdrop1, readLe32_le32_append, Nat.mod_eq_of_lt hk]
  have hvalLen : readLe32 (r.serialize.drop 5) = r.value.length := by
    rw [hdrop5, readLe32_le32_append, Nat.mod_eq_of_lt hv]
  rw [deserialize]
  rw [if_neg (by omega)]
  simp only [hkeyLen, hvalLen]
  rw [if_neg (by have := Nat.mod_le (9 + r.key.length + r.value.length) (2 ^ 32); omega)]
  have hgetD0 : r.serialize.getD 0 0 = r.rtype := by
    simp [Record.serialize, List.getD, hty]
  have hkeyslice : (r.serialize.drop 9).take r.key.length = r.key := by
    rw [hdrop9, List.take_left]
  have hdrop9k : r.serialize.drop (9 + r.key.length) = r.value := by
    rw [← List.drop_drop, hdrop9, List.drop_left]
  conv_rhs => rw [show r = ⟨r.rtype, r.key, r.value⟩ from rfl]
  simp only [Option.some.injEq, Record.mk.injEq]
  refine ⟨hgetD0, hkeyslice, ?_⟩
  rw [hgetD0, hdrop9k]
  rcases ht with h | ⟨h, h'⟩
  · by_cases hvz : 0 < r.value.length
    · rw [if_pos ⟨h, hvz⟩, List.take_length]
    · rw [if_neg (by tauto)]
      exact (List.eq_nil_of_length_eq_zero (by omega)).symm
  · rw [if_neg (by simp [h, RecordTypeDelete, RecordTypeInsert]), h']

theorem idxLookup_set (m : IdxMap) (k v h : Nat) :
    idxLookup (idxSet m k v) h = if k = h then some v else idxLookup m h := rfl

theorem Record.SWF.wf {r : Record} (h : r.SWF) : r.WF :=
  ⟨h.1, by have := h.2; omega, by have := h.2; omega⟩

theorem logOf_length (recs : List Record) : (logOf recs).length = recSize recs := by
  induction recs with
  | nil => rfl
  | cons r rs ih => simp [logOf, recSize] at ih ⊢; omega

theorem logOf_append (xs ys : List Record) : logOf (xs ++ ys) = logOf xs ++ logOf ys := by
  simp [logOf]

theorem recSize_append (xs ys : List Record) : recSize (xs ++ ys) = recSize xs + recSize ys := by
  simp [recSize]

theorem length_le_recSize (recs : List Record) : recs.length ≤ recSize recs := by
  induction recs with
  | nil => simp [recSize]
  | cons r rs ih =>
    have : 9 ≤ r.serialize.length := by rw [Record.serialize_length]; omega
    simp only [recSize, List.map_cons, List.sum_cons, List.length_cons] at ih ⊢
    omega

theorem lastRecFrom_append_single (h : Nat) (off : Nat) (xs : List Record) (r : Record) :
    lastRecFrom h off (xs ++ [r]) =
      if hashKey r.key = h then some (off + recSize xs, r) else lastRecFrom h off xs := by
  induction xs generalizing off with
  | nil => simp [lastRecFrom, recSize]
  | cons x xs ih =>
    simp only [List.cons_append, lastRecFrom, List.append_eq]
    rw [ih]
    by_cases hx : hashKey r.key = h
    · rw [if_pos hx, if_pos hx,
        show off + x.serialize.length + recSize xs = off + recSize (x :: xs) from by
          simp [recSize]; omega]
    · rw [if_neg hx, if_neg hx]

theorem lastRecFrom_mem_decomp (h : Nat) (recs : List Record) (off0 off : Nat) (r : Record)
    (hfind : lastRecFrom h off0 recs = some (off, r)) :
    ∃ pre suf, recs = pre ++ r :: suf ∧ off = off0 + recSize pre ∧ hashKey r.key = h := by
  induction recs generalizing off0 with
  | nil => simp [lastRecFrom] at hfind
  | cons x xs ih =>
    rw [lastRecFrom] at hfind
    cases hrest : lastRecFrom h (off0 + x.serialize.length) xs with
    | some p =>
      rw [hrest] at hfind
      have hp : p = (off, r) := by simpa using hfind
      obtain ⟨pre, suf, hxs, hoff, hh⟩ := ih _ (hrest.trans (by rw [hp]))
      refine ⟨x :: pre, suf, by rw [hxs, List.cons_append], ?_, hh⟩
      simp only [recSize, List.map_cons, List.sum_cons] at hoff ⊢
      omega
    | none =>
      rw [hrest] at hfind
      by_cases hx : hashKey x.key = h
      · rw [if_pos hx] at hfind
        have h1 : off0 = off ∧ x = r := by simpa using hfind
        refine ⟨[], xs, by simp [h1.2], by simp [recSize, h1.1], h1.2 ▸ hx⟩
      · rw [if_neg hx] at hfind
        exact absurd hfind (by simp)

/-! ## Reading back a record that sits inside the log -/

theorem readRecord_log_only (log : List Nat) (idx : IdxMap) (o off : Nat) :
    Store.readRecord ⟨log, idx, o⟩ off = Store.readRecord ⟨log, [], 0⟩ off := rfl

theorem serialize_take_nine (r : Record) :
    r.serialize.take 9 = r.rtype % 256 :: (le32 r.key.length ++ le32 r.value.length) := by
  simp [Record.serialize, le32, List.take]

theorem serialize_drop_nine (r : Record) : r.serialize.drop 9 = r.key ++ r.value := by
  simp [Record.serialize, le32, List.drop]

theorem readLe32_le32 (n : Nat) : readLe32 (le32 n) = n % 2 ^ 32 := by
  have := readLe32_le32_append n []
  simpa using this

theorem readRecord_pre (pre : List Nat) (r : Record) (suf : List Nat) (hr : r.SWF) :
    Store.readRecord ⟨pre ++ r.serialize ++ suf, [], 0⟩ pre.length = some r := by
  obtain ⟨ht, hlen⟩ := hr
  have hsl := Record.serialize_length r
  have hk : r.key.length < 2 ^ 32 := by omega
  have hv : r.value.length < 2 ^ 32 := by omega
  have hlog : (pre ++ r.serialize ++ suf).length = pre.length + r.serialize.length + suf.length := by
    simp only [List.length_append]
  have hdrop : (pre ++ r.serialize ++ suf).drop pre.length = r.serialize ++ suf := by
    rw [List.append_assoc, List.drop_left]
  have h9 : readAt (pre ++ r.serialize ++ suf) pre.length 9 =
      some (r.rtype % 256 :: (le32 r.key.length ++ le32 r.value.length)) := by
    rw [readAt, if_pos (by omega), hdrop, List.take_append_of_le_length (by omega),
      serialize_take_nine]
  have hH1 : readLe32 ((r.rtype % 256 :: (le32 r.key.length ++ le32 r.value.length)).drop 1) =
      r.key.length := by
    show readLe32 (le32 r.key.length ++ le32 r.value.length) = _
    rw [readLe32_le32_append, Nat.mod_eq_of_lt hk]
  have hH5 : readLe32 ((r.rtype % 256 :: (le32 r.key.length ++ le32 r.value.length)).drop 5) =
      r.value.length := by
    show readLe32 (le32 r.value.length) = _
    rw [readLe32_le32, Nat.mod_eq_of_lt hv]
  have hrem : readAt (pre ++ r.serialize ++ suf) (pre.length + 9)
      ((r.key.length + r.value.length) % 2 ^ 32) = some (r.key ++ r.value) := by
    rw [Nat.mod_eq_of_lt hlen, readAt, if_pos (by omega)]
    have hsplit : pre ++ r.serialize ++ suf =
        (pre ++ r.serialize.take 9) ++ ((r.key ++ r.value) ++ suf) := by
      conv_lhs => rw [← List.take_append_drop 9 r.serialize]
      rw [serialize_drop_nine]
      simp only [List.append_assoc]
    have hlen9 : (pre ++ r.serialize.take 9).length = pre.length + 9 := by
      simp only [List.length_append, List.length_take]
      omega
    rw [hsplit, List.drop_left' hlen9, List.take_left' (by simp)]
  simp only [Store.readRecord, h9, hH1, hH5, hrem]
  rw [show r.rtype % 256 :: (le32 r.key.length ++ le32 r.value.length) ++ (r.key ++ r.value) =
      r.serialize from by simp [Record.serialize]]
  exact deserialize_serialize r ⟨ht, hk, hv⟩

theorem writeAt_at_length (file data : List Nat) : writeAt file file.length data = file ++ data := by
  simp [writeAt, List.drop_eq_nil_of_le]

theorem Inv.fresh : Inv [] Store.fresh :=
  ⟨rfl, rfl, by simp, fun _ => rfl⟩

theorem Store.readRecord_eq (s : Store) (off : Nat) :
    s.readRecord off = Store.readRecord ⟨s.log, [], 0⟩ off := rfl

theorem readRecord_of_lastRec {recs : List Record} {s : Store} (hinv : Inv recs s)
    {h off : Nat} {r : Record} (hfind : lastRec recs h = some (off, r)) :
    s.readRecord off = some r ∧ off + r.serialize.length ≤ s.offset := by
  obtain ⟨pre, suf, hrecs, hoff, -⟩ := lastRecFrom_mem_decomp h recs 0 off r hfind
  have hswf : r.SWF := hinv.wf r (by rw [hrecs]; simp)
  have hlog : s.log = logOf pre ++ r.serialize ++ logOf suf := by
    rw [hinv.log_eq, hrecs, logOf_append]
    simp [logOf, List.append_assoc]
  constructor
  · rw [Store.readRecord_eq, hlog, show off = (logOf pre).length from by
      rw [logOf_length]; omega]
    exact readRecord_pre (logOf pre) r (logOf suf) hswf
  · rw [hinv.off_eq, hrecs, recSize_append]
    have hcons : recSize (r :: suf) = r.serialize.length + recSize suf := by
      simp [recSize]
    omega

theorem get_spec {recs : List Record} {s : Store} (hinv : Inv recs s) (k : List Nat) :
    s.get k = specOf (lastRec recs (hashKey k)) := by
  rw [Store.get, hinv.idx_eq]
  cases hfind : lastRec recs (hashKey k) with
  | none => rfl
  | some p =>
    obtain ⟨off, r⟩ := p
    obtain ⟨hread, -⟩ := readRecord_of_lastRec hinv hfind
    simp only [Option.map_some', specOf]
    rw [hread]

theorem Inv.append {recs : List Record} {s : Store} (hinv : Inv recs s) (rec : Record)
    (hswf : rec.SWF) :
    Inv (recs ++ [rec])
      ⟨writeAt s.log s.offset rec.serialize, idxSet s.idx (hashKey rec.key) s.offset,
        s.offset + rec.serialize.length⟩ := by
  refine ⟨?_, ?_, ?_, ?_⟩
  · show writeAt s.log s.offset rec.serialize = _
    rw [hinv.log_eq, hinv.off_eq, ← logOf_length, writeAt_at_length, logOf_append]
    simp [logOf]
  · show s.offset + rec.serialize.length = _
    rw [hinv.off_eq, recSize_append]
    simp [recSize]
  · intro r hr
    rcases List.mem_append.mp hr with h | h
    · exact hinv.wf r h
    · rw [List.mem_singleton.mp h]
      exact hswf
  · intro h
    show idxLookup (idxSet s.idx (hashKey rec.key) s.offset) h = _
    rw [idxLookup_set, hinv.idx_eq h]
    simp only [lastRec]
    rw [lastRecFrom_append_single]
    by_cases hh : hashKey rec.key = h
    · rw [if_pos hh, if_pos hh, hinv.off_eq]
      simp
    · rw [if_neg hh, if_neg hh]

theorem applyOp_inv {recs : List Record} {s : Store} (hinv : Inv recs s) (op : Op)
    (hwf : op.WF) (hok : (s.applyOp op).2 = none) :
    Inv (recsStep recs op) (s.applyOp op).1 := by
  cases op with
  | put k v =>
    simp only [Store.applyOp, Store.put, recsStep]
    exact hinv.append ⟨RecordTypeInsert, k, v⟩ ⟨Or.inl rfl, hwf⟩
  | add k v =>
    simp only [Store.applyOp, Store.add, idxInsert] at hok ⊢
    by_cases hl : (idxLookup s.idx (hashKey k)).isSome = true
    · rw [if_pos hl] at hok
      simp at hok
    · rw [if_neg hl]
      simp only [recsStep]
      exact hinv.append ⟨RecordTypeInsert, k, v⟩ ⟨Or.inl rfl, hwf⟩
  | update k v =>
    simp only [Store.applyOp, Store.update, idxInsert] at hok ⊢
    by_cases hl : (idxLookup s.idx (hashKey k)).isSome = true
    · rw [if_pos hl]
      simp only [recsStep]
      exact hinv.append ⟨RecordTypeInsert, k, v⟩ ⟨Or.inl rfl, hwf⟩
    · rw [if_neg hl] at hok
      simp at hok
  | del k =>
    simp only [Store.applyOp, Store.delete] at hok ⊢
    have hmap := hinv.idx_eq (hashKey k)
    cases hlast : lastRec recs (hashKey k) with
    | none =>
      rw [hlast] at hmap
      simp only [Option.map_none'] at hmap
      simp only [hmap, recsStep, hlast]
      exact hinv
    | some p =>
      obtain ⟨off, r0⟩ := p
      rw [hlast] at hmap
      simp only [Option.map_some'] at hmap
      obtain ⟨hread, hbound⟩ := readRecord_of_lastRec hinv hlast
      simp only [hmap, hread]
      by_cases ht : r0.rtype = RecordTypeDelete
      · rw [if_pos ht]
        simp only [recsStep, hlast, if_pos ht]
        exact hinv
      · rw [if_neg ht]
        simp only [recsStep, hlast, if_neg ht]
        exact hinv.append ⟨RecordTypeDelete, k, []⟩ ⟨Or.inr ⟨rfl, rfl⟩, by
          simpa using hwf⟩

theorem run_inv (ops : List Op) : ∀ (recs : List Record) (s : Store), Inv recs s →
    (∀ op ∈ ops, op.WF) → s.okRun ops = true → Inv (ops.foldl recsStep recs) (s.run ops) := by
  induction ops with
  | nil =>
    intro recs s hinv _ _
    exact hinv
  | cons op ops ih =>
    intro recs s hinv hwf hok
    rw [Store.okRun, Bool.and_eq_true] at hok
    have h1 : (s.applyOp op).2 = none := of_decide_eq_true hok.1
    exact ih _ _ (applyOp_inv hinv op (hwf op (by simp)) h1)
      (fun o ho => hwf o (by simp [ho])) hok.2

theorem reachable_inv (ops : List Op) (hwf : ∀ op ∈ ops, op.WF)
    (hok : Store.fresh.okRun ops = true) : Inv (runRecs ops) (Store.fresh.run ops) :=
  run_inv ops [] Store.fresh Inv.fresh hwf hok

theorem relSpec_step (k : List Nat) (recs : List Record) (cur : Option (List Nat)) (op : Op)
    (hrel : RelSpec k (lastRec recs (hashKey k)) cur)
    (hkey : hashKey op.key = hashKey k → op.key = k) :
    RelSpec k (lastRec (recsStep recs op) (hashKey k)) (specStep k cur op) := by
  have hins : ∀ (k' v : List Nat), (hashKey k' = hashKey k → k' = k) →
      RelSpec k (lastRec (recs ++ [⟨RecordTypeInsert, k', v⟩]) (hashKey k))
        (if k' = k then some v else cur) := by
    intro k' v hk'
    rw [lastRec, lastRecFrom_append_single]
    by_cases hh : hashKey k' = hashKey k
    · have hkk : k' = k := hk' hh
      subst hkk
      rw [if_pos hh, if_pos rfl]
      exact ⟨rfl, Or.inl ⟨rfl, rfl⟩⟩
    · have hne : k' ≠ k := fun he => hh (he ▸ rfl)
      rw [if_neg hh, if_neg hne]
      exact hrel
  cases op with
  | put k' v => exact hins k' v hkey
  | add k' v => exact hins k' v hkey
  | update k' v => exact hins k' v hkey
  | del k' =>
    simp only [recsStep, specStep]
    by_cases hh : hashKey k' = hashKey k
    · have hkk : k' = k := hkey hh
      subst hkk
      rw [if_pos rfl]
      cases hlast : lastRec recs (hashKey k') with
      | none =>
        simp only [hlast]
        rw [hlast] at hrel
        cases cur with
        | none => trivial
        | some v => exact hrel.elim
      | some p =>
        obtain ⟨off, r0⟩ := p
        simp only [hlast]
        rw [hlast] at hrel
        obtain ⟨hkey0, hshape⟩ := hrel
        by_cases ht : r0.rtype = RecordTypeDelete
        · rw [if_pos ht, hlast]
          rcases hshape with ⟨hti, -⟩ | ⟨-, hval, -⟩
          · exact absurd (hti ▸ ht) (by simp [RecordTypeInsert, RecordTypeDelete])
          · exact ⟨hkey0, Or.inr ⟨ht, hval, rfl⟩⟩
        · rw [if_neg ht, lastRec, lastRecFrom_append_single, if_pos (hkey0 ▸ hh)]
          exact ⟨rfl, Or.inr ⟨rfl, rfl, rfl⟩⟩
    · have hne : k' ≠ k := fun he => hh (he ▸ rfl)
      rw [if_neg hne]
      cases hlast : lastRec recs (hashKey k') with
      | none =>
        simp only [hlast]
        exact hrel
      | some p =>
        obtain ⟨off, r1⟩ := p
        simp only [hlast]
        by_cases ht : r1.rtype = RecordTypeDelete
        · rw [if_pos ht]
          exact hrel
        · rw [if_neg ht, lastRec, lastRecFrom_append_single, if_neg hh]
          exact hrel

theorem relSpec_run (k : List Nat) (ops : List Op) :
    ∀ (recs : List Record) (cur : Option (List Nat)),
      RelSpec k (lastRec recs (hashKey k)) cur →
      (∀ op ∈ ops, hashKey op.key = hashKey k → op.key = k) →
      RelSpec k (lastRec (ops.foldl recsStep recs) (hashKey k)) (lastWriteFrom cur ops k) := by
  induction ops with
  | nil =>
    intro recs cur hrel _
    exact hrel
  | cons op ops ih =>
    intro recs cur hrel hinj
    exact ih _ _ (relSpec_step k recs cur op hrel (hinj op (by simp)))
      (fun o ho => hinj o (by simp [ho]))

/-- C1 (amended): for every sequence of successful store operations from a
fresh store — with every key and value representable (lengths summing below
`2^32`) and no FNV-64a hash collision between the queried key and any key of
the sequence — `Get(k)` returns `(v, found = true, no error)` where `v` is
the value of the most recent `Put`/`Add`/`Update(k, v)`, and
`(nil, found = false, no error)` when the most recent operation on `k` was
`Delete(k)` or no operation with key `k` ever occurred. -/
theorem store_get_most_recent (ops : List Op) (k : List Nat)
    (hwf : ∀ op ∈ ops, op.WF) (hok : Store.fresh.okRun ops = true)
    (hinj : ∀ op ∈ ops, hashKey op.key = hashKey k → op.key = k) :
    (Store.fresh.run ops).get k =
      match lastWrite ops k with
      | some v => (some v, true, none)
      | none => (none, false, none) := by
  have hinv := reachable_inv ops hwf hok
  rw [get_spec hinv k]
  have hrel : RelSpec k (lastRec (runRecs ops) (hashKey k)) (lastWrite ops k) :=
    relSpec_run k ops [] none trivial hinj
  cases hl : lastRec (runRecs ops) (hashKey k) with
  | none =>
    rw [hl] at hrel
    cases hlw : lastWrite ops k with
    | none => simp [specOf]
    | some v =>
      rw [hlw] at hrel
      exact hrel.elim
  | some p =>
    obtain ⟨off, r⟩ := p
    rw [hl] at hrel
    obtain ⟨hkey0, hshape⟩ := hrel
    rcases hshape with ⟨hti, hspec⟩ | ⟨htd, hval, hspec⟩
    · rw [hspec]
      simp [specOf, hti, RecordTypeInsert, RecordTypeDelete]
    · rw [hspec]
      simp [specOf, htd]

/-- C1 witness: a concrete successful run — put, delete, re-put on another
key — where `Get` returns exactly the spec value. -/
theorem store_get_most_recent_witness :
    (Store.fresh.run [Op.put [1] [7], Op.del [1], Op.put [2] [9]]).get [2] =
      match lastWrite [Op.put [1] [7], Op.del [1], Op.put [2] [9]] [2] with
      | some v => (some v, true, none)
      | none => (none, false, none) :=
  store_get_most_recent [Op.put [1] [7], Op.del [1], Op.put [2] [9]] [2]
    (by decide) (by decide) (by decide)

/-- C1 counterexample: the 8-byte keys `[188,67,236,86,96,156,234,243]` and
`[189,152,18,86,214,212,15,76]` are distinct but share their FNV-64a hash, so
after `Put` of the first key alone — a successful run in which no operation
ever used the second key — `Get` of the second key returns the first key's
value with `found = true` instead of `(nil, false)`. -/
theorem store_get_collision_counterexample :
    ([188, 67, 236, 86, 96, 156, 234, 243] : List Nat) ≠ [189, 152, 18, 86, 214, 212, 15, 76] ∧
    hashKey [188, 67, 236, 86, 96, 156, 234, 243] = hashKey [189, 152, 18, 86, 214, 212, 15, 76] ∧
    Store.fresh.okRun [Op.put [188, 67, 236, 86, 96, 156, 234, 243] [1]] = true ∧
    (Store.fresh.run [Op.put [188, 67, 236, 86, 96, 156, 234, 243] [1]]).get
      [189, 152, 18, 86, 214, 212, 15, 76] = (some [1], true, none) := by
  refine ⟨by decide, by decide, by decide, by decide⟩

/-! ## Recovery by log replay (C2) -/

theorem readRecord_none (log : List Nat) (off : Nat) (h : log.length < off + 9) :
    Store.readRecord ⟨log, [], 0⟩ off = none := by
  rw [Store.readRecord, show readAt log off 9 = none from if_neg (by omega)]

theorem recSize_single (r : Record) : recSize [r] = r.serialize.length := by
  simp [recSize]

theorem replayAux_join (rest : List Record) :
    ∀ (pre : List Record) (idx0 : IdxMap) (fuel : Nat),
      rest.length < fuel →
      (∀ r ∈ rest, r.SWF) →
      (replayAux fuel (logOf (pre ++ rest)) (recSize pre) idx0).2 = recSize (pre ++ rest) ∧
      ∀ h, idxLookup (replayAux fuel (logOf (pre ++ rest)) (recSize pre) idx0).1 h =
        (match lastRecFrom h (recSize pre) rest with
         | some p => some p.1
         | none => idxLookup idx0 h) := by
  induction rest with
  | nil =>
    intro pre idx0 fuel hfuel _
    cases fuel with
    | zero => omega
    | succ m =>
      simp only [List.append_nil]
      rw [replayAux, readRecord_none _ _ (by rw [logOf_length]; omega)]
      exact ⟨rfl, fun h => by simp [lastRecFrom]⟩
  | cons r rest ih =>
    intro pre idx0 fuel hfuel hswf
    cases fuel with
    | zero => omega
    | succ m =>
      have hr : r.SWF := hswf r (by simp)
      have hassoc : pre ++ r :: rest = (pre ++ [r]) ++ rest := by simp
      have hlog : logOf (pre ++ r :: rest) = logOf pre ++ r.serialize ++ logOf rest := by
        rw [hassoc, logOf_append, logOf_append]
        simp [logOf, List.append_assoc]
      have hread : Store.readRecord ⟨logOf (pre ++ r :: rest), [], 0⟩ (recSize pre) = some r := by
        rw [hlog, show recSize pre = (logOf pre).length from (logOf_length pre).symm]
        exact readRecord_pre _ _ _ hr
      have heq : recSize pre + r.serialize.length = recSize (pre ++ [r]) := by
        rw [recSize_append, recSize_single]
      rw [show replayAux (m + 1) (logOf (pre ++ r :: rest)) (recSize pre) idx0 =
          replayAux m (logOf (pre ++ r :: rest)) (recSize pre + r.serialize.length)
            (idxSet idx0 (hashKey r.key) (recSize pre)) from by rw [replayAux, hread]]
      have hlog2 : logOf (pre ++ r :: rest) = logOf ((pre ++ [r]) ++ rest) := by
        rw [hassoc]
      obtain ⟨ih1, ih2⟩ := ih (pre ++ [r]) (idxSet idx0 (hashKey r.key) (recSize pre)) m
        (by simpa using Nat.lt_of_succ_lt_succ hfuel)
        (fun r' h' => hswf r' (by simp [h']))
      rw [heq, hlog2]
      refine ⟨ih1.trans (by rw [← hassoc]), fun h => ?_⟩
      rw [ih2 h]
      rw [show lastRecFrom h (recSize pre) (r :: rest) =
          match lastRecFrom h (recSize pre + r.serialize.length) rest with
          | some p => some p
          | none => if hashKey r.key = h then some (recSize pre, r) else none from rfl, heq]
      cases hres : lastRecFrom h (recSize (pre ++ [r])) rest with
      | some p => rfl
      | none =>
        rw [idxLookup_set]
        by_cases hh : hashKey r.key = h
        · rw [if_pos hh, if_pos hh]
        · rw [if_neg hh, if_neg hh]

theorem recover_eq (log : List Nat) :
    Store.recover log =
      ⟨log, (replayAux (log.length + 1) log 0 []).1, (replayAux (log.length + 1) log 0 []).2⟩ :=
  rfl

theorem recover_inv (recs : List Record) (hwf : ∀ r ∈ recs, r.SWF) :
    Inv recs (Store.recover (logOf recs)) := by
  obtain ⟨h2, h1⟩ := replayAux_join recs [] [] ((logOf recs).length + 1)
    (by have := length_le_recSize recs; rw [logOf_length]; omega) hwf
  refine ⟨rfl, ?_, hwf, ?_⟩
  · rw [recover_eq]
    exact h2
  · intro h
    rw [recover_eq]
    have h1h : idxLookup (replayAux ((logOf recs).length + 1) (logOf recs) 0 []).1 h =
        match lastRecFrom h 0 recs with
        | some p => some p.1
        | none => none := h1 h
    rw [h1h, lastRec]
    cases lastRecFrom h 0 recs with
    | none => rfl
    | some p => rfl

/-- C2 (amended): after any sequence of *successful* store operations (with
representable keys and values), re-opening the data directory without
`clean.lock` — the log survives, the in-memory index and offset are rebuilt
by `recoverIndex` replay — yields a store whose `Get` agrees with the
pre-crash store on every key, and whose append offset equals the total
serialized size of the records scanned (which is the pre-crash offset). -/
theorem store_recover_correct (ops : List Op)
    (hwf : ∀ op ∈ ops, op.WF) (hok : Store.fresh.okRun ops = true) :
    (∀ k, (Store.recover (Store.fresh.run ops).log).get k = (Store.fresh.run ops).get k) ∧
    (Store.recover (Store.fresh.run ops).log).offset = recSize (runRecs ops) ∧
    (Store.recover (Store.fresh.run ops).log).offset = (Store.fresh.run ops).offset := by
  have hinv := reachable_inv ops hwf hok
  have hrec : Inv (runRecs ops) (Store.recover (Store.fresh.run ops).log) := by
    rw [hinv.log_eq]
    exact recover_inv _ hinv.wf
  refine ⟨fun k => ?_, hrec.off_eq, ?_⟩
  · rw [get_spec hrec k, get_spec hinv k]
  · rw [hrec.off_eq, hinv.off_eq]

/-- C2 witness: a concrete one-put run recovered by replay returns the same
`Get` result after the simulated crash. -/
theorem store_recover_correct_witness :
    (Store.recover (Store.fresh.run [Op.put [5] [6]]).log).get [5] =
      (Store.fresh.run [Op.put [5] [6]]).get [5] :=
  (store_recover_correct [Op.put [5] [6]] (by decide) (by decide)).1 [5]

/-- C2 counterexample: the claim quantifies over *every* sequence of store
operations, but a failed `Update` on a fresh store writes its record bytes
durably without advancing the offset or touching the index.  Before the
crash `Get` returns not-found; after re-open the replay scans that orphaned
record and installs it, so `Get` returns the failed update's value. -/
theorem store_recover_counterexample :
    (Store.fresh.run [Op.update [107] [1]]).get [107] = (none, false, none) ∧
    (Store.recover (Store.fresh.run [Op.update [107] [1]]).log).get [107] =
      (some [1], true, none) := by
  refine ⟨by decide, by decide⟩

/-! ## Writing at the append offset (C7, C10) -/

theorem writeAt_pre_length (log : List Nat) (off : Nat) :
    (log.take off ++ List.replicate (off - log.length) 0).length = off := by
  simp only [List.length_append, List.length_take, List.length_replicate]
  omega

theorem readRecord_writeAt (log : List Nat) (off : Nat) (r : Record) (hr : r.SWF) :
    Store.readRecord ⟨writeAt log off r.serialize, [], 0⟩ off = some r := by
  have h := readRecord_pre (log.take off ++ List.replicate (off - log.length) 0) r
    (log.drop (off + r.serialize.length)) hr
  rwa [writeAt_pre_length] at h

theorem readAt_writeAt_self (log : List Nat) (off : Nat) (data : List Nat) :
    readAt (writeAt log off data) off data.length = some data := by
  have hpre := writeAt_pre_length log off
  rw [readAt, if_pos (by simp [writeAt]; omega)]
  rw [show writeAt log off data =
      (log.take off ++ List.replicate (off - log.length) 0) ++
        (data ++ log.drop (off + data.length)) from by simp [writeAt]]
  rw [List.drop_left' hpre, List.take_left]

/-- `Delete` when the index entry designates a missing read is not needed;
these two equations capture the two live branches of `Store.Delete`. -/
theorem delete_tombstone {s : Store} {k : List Nat} {off : Nat} {r : Record}
    (hl : idxLookup s.idx (hashKey k) = some off)
    (hr : s.readRecord off = some r) (ht : r.rtype = RecordTypeDelete) :
    s.delete k = (s, false, none) := by
  simp only [Store.delete, hl, hr, if_pos ht]

theorem delete_live {s : Store} {k : List Nat} {off : Nat} {r : Record}
    (hl : idxLookup s.idx (hashKey k) = some off)
    (hr : s.readRecord off = some r) (ht : ¬r.rtype = RecordTypeDelete) :
    s.delete k =
      (⟨writeAt s.log s.offset (Record.mk RecordTypeDelete k []).serialize,
        idxSet s.idx (hashKey k) s.offset,
        s.offset + (Record.mk RecordTypeDelete k []).serialize.length⟩, true, none) := by
  simp only [Store.delete, hl, hr, if_neg ht]

/-- C7: on a key whose index entry designates a non-tombstone record,
`Delete` appends a tombstone at the current offset, upserts the index to the
tombstone's offset and returns `(true, ok)`; an immediately following second
`Delete` returns `(false, ok)` leaving the store untouched; and `Delete` on a
key with no index entry returns `(false, ok)` without writing anything. -/
theorem store_delete_spec (s : Store) (k : List Nat) (hk : k.length < 2 ^ 32) :
    ((s.get k).2.1 = true →
      s.delete k =
        (⟨writeAt s.log s.offset (Record.mk RecordTypeDelete k []).serialize,
          idxSet s.idx (hashKey k) s.offset,
          s.offset + (Record.mk RecordTypeDelete k []).serialize.length⟩, true, none) ∧
      (s.delete k).1.delete k = ((s.delete k).1, false, none)) ∧
    (idxLookup s.idx (hashKey k) = none → s.delete k = (s, false, none)) := by
  constructor
  · intro hfound
    cases hl : idxLookup s.idx (hashKey k) with
    | none => simp [Store.get, hl] at hfound
    | some off =>
      cases hr : s.readRecord off with
      | none => simp [Store.get, hl, hr] at hfound
      | some r0 =>
        by_cases ht : r0.rtype = RecordTypeDelete
        · simp [Store.get, hl, hr, ht] at hfound
        · have hdel := delete_live hl hr ht
          refine ⟨hdel, ?_⟩
          rw [hdel]
          have htomb : (Record.mk RecordTypeDelete k []).SWF :=
            ⟨Or.inr ⟨rfl, rfl⟩, by simpa using hk⟩
          exact delete_tombstone (idxLookup_set s.idx (hashKey k) s.offset (hashKey k) ▸
              if_pos rfl)
            (readRecord_writeAt s.log s.offset (Record.mk RecordTypeDelete k []) htomb) rfl
  · intro hnone
    simp only [Store.delete, hnone]

/-- C7 witness: put then delete twice on a concrete store. -/
theorem store_delete_spec_witness :
    ((Store.fresh.run [Op.put [3] [4]]).delete [3]).1.delete [3] =
      (((Store.fresh.run [Op.put [3] [4]]).delete [3]).1, false, none) :=
  ((store_delete_spec (Store.fresh.run [Op.put [3] [4]]) [3] (by decide)).1 (by decide)).2

theorem get_writeAt_preserved {recs : List Record} {s : Store} (hinv : Inv recs s)
    (data : List Nat) (k' : List Nat) :
    Store.get ⟨writeAt s.log s.offset data, s.idx, s.offset⟩ k' = s.get k' := by
  rw [Store.get, Store.get]
  cases hl : idxLookup s.idx (hashKey k') with
  | none => rfl
  | some off =>
    have hmap := hinv.idx_eq (hashKey k')
    rw [hl] at hmap
    cases hlast : lastRec recs (hashKey k') with
    | none =>
      rw [hlast] at hmap
      simp at hmap
    | some p =>
      obtain ⟨off2, r⟩ := p
      rw [hlast] at hmap
      have hoff : off = off2 := by simpa using hmap
      subst hoff
      obtain ⟨hread, hbound⟩ := readRecord_of_lastRec hinv hlast
      obtain ⟨pre, suf, hrecs, hoffpre, -⟩ := lastRecFrom_mem_decomp _ recs 0 off r hlast
      have hswf : r.SWF := hinv.wf r (by rw [hrecs]; simp)
      have hread2 : Store.readRecord ⟨writeAt s.log s.offset data, s.idx, s.offset⟩ off =
          some r := by
        rw [Store.readRecord_eq]
        have hlog2 : writeAt s.log s.offset data = logOf pre ++ r.serialize ++
            (logOf suf ++ data) := by
          rw [hinv.log_eq, hinv.off_eq, ← logOf_length, writeAt_at_length, hrecs, logOf_append]
          simp [logOf, List.append_assoc]
        rw [hlog2, show off = (logOf pre).length from by rw [logOf_length]; omega]
        exact readRecord_pre _ _ _ hswf
      simp only [hread, hread2]

/-- C10: on a reachable store, a failed `Add` (key hash already indexed,
`KeyAlreadyExists`) or a failed `Update` (key hash not indexed, `KeyNotFound`)
leaves the append offset and the index mapping unchanged — only the log bytes
at the old append offset now hold the serialized record — so `Get` returns
exactly what it returned before for every key. -/
theorem store_failed_write_spec (s : Store) (hreach : s.Reachable) (k v : List Nat) :
    ((idxLookup s.idx (hashKey k)).isSome = true →
      s.add k v =
        (⟨writeAt s.log s.offset (Record.mk RecordTypeInsert k v).serialize, s.idx, s.offset⟩,
          some StoreErr.keyAlreadyExists) ∧
      (∀ k2, (s.add k v).1.get k2 = s.get k2) ∧
      readAt (s.add k v).1.log s.offset (Record.mk RecordTypeInsert k v).serialize.length =
        some (Record.mk RecordTypeInsert k v).serialize) ∧
    (idxLookup s.idx (hashKey k) = none →
      s.update k v =
        (⟨writeAt s.log s.offset (Record.mk RecordTypeInsert k v).serialize, s.idx, s.offset⟩,
          some StoreErr.keyNotFound) ∧
      (∀ k2, (s.update k v).1.get k2 = s.get k2) ∧
      readAt (s.update k v).1.log s.offset (Record.mk RecordTypeInsert k v).serialize.length =
        some (Record.mk RecordTypeInsert k v).serialize) := by
  obtain ⟨ops, hwf, hok, rfl⟩ := hreach
  have hinv := reachable_inv ops hwf hok
  constructor
  · intro hsome
    have hadd : (Store.fresh.run ops).add k v =
        (⟨writeAt (Store.fresh.run ops).log (Store.fresh.run ops).offset
            (Record.mk RecordTypeInsert k v).serialize,
          (Store.fresh.run ops).idx, (Store.fresh.run ops).offset⟩,
          some StoreErr.keyAlreadyExists) := by
      simp only [Store.add, idxInsert, if_pos hsome, IdxErr.toStoreErr]
    refine ⟨hadd, fun k2 => ?_, ?_⟩
    · rw [hadd]
      exact get_writeAt_preserved hinv _ k2
    · rw [hadd]
      exact readAt_writeAt_self _ _ _
  · intro hnone
    have hupd : (Store.fresh.run ops).update k v =
        (⟨writeAt (Store.fresh.run ops).log (Store.fresh.run ops).offset
            (Record.mk RecordTypeInsert k v).serialize,
          (Store.fresh.run ops).idx, (Store.fresh.run ops).offset⟩,
          some StoreErr.keyNotFound) := by
      simp only [Store.update, idxInsert, hnone, Option.isSome_none, Bool.false_eq_true,
        if_false, IdxErr.toStoreErr]
    refine ⟨hupd, fun k2 => ?_, ?_⟩
    · rw [hupd]
      exact get_writeAt_preserved hinv _ k2
    · rw [hupd]
      exact readAt_writeAt_self _ _ _

/-- C10 witness: a failed `Add` on a one-key store leaves `Get` unchanged. -/
theorem store_failed_write_spec_witness :
    ((Store.fresh.run [Op.put [3] [4]]).add [3] [9]).1.get [3] =
      (Store.fresh.run [Op.put [3] [4]]).get [3] :=
  ((store_failed_write_spec (Store.fresh.run [Op.put [3] [4]])
    ⟨[Op.put [3] [4]], by decide, by decide, rfl⟩ [3] [9]).1 (by decide)).2.1 [3]

/-- C8: for every record well-formed per the layout (`Insert` with arbitrary
key/value bytes, or `Delete` with no value bytes; lengths representable in a
`u32`), `deserialize (serialize r)` succeeds and returns a record with the
same type byte, identical key bytes and identical value bytes (empty for
tombstones); `serialize r` is `9 + len(key) + len(value)` bytes long, starts
with the type byte, and stores the key and value lengths as little-endian
`u32` at offsets 1 and 5. -/
theorem record_layout_roundtrip (r : Record) (h : r.WF) :
    deserialize r.serialize = some r ∧
    r.serialize.length = 9 + r.key.length + r.value.length ∧
    r.serialize.take 1 = [r.rtype] ∧
    (r.serialize.drop 1).take 4 = le32 r.key.length ∧
    (r.serialize.drop 5).take 4 = le32 r.value.length := by
  have hty : r.rtype % 256 = r.rtype := by
    rcases h.1 with h1 | ⟨h1, _⟩ <;> simp [h1, RecordTypeInsert, RecordTypeDelete]
  refine ⟨deserialize_serialize r h, Record.serialize_length r, ?_, ?_, ?_⟩
  · simp [Record.serialize, hty]
  · rw [show r.serialize.drop 1 =
        le32 r.key.length ++ (le32 r.value.length ++ r.key ++ r.value) from by
          simp [Record.serialize],
      List.take_left' (le32_length r.key.length)]
  · rw [show r.serialize.drop 5 = le32 r.value.length ++ (r.key ++ r.value) from by
        simp [Record.serialize, le32, List.drop],
      List.take_left' (le32_length r.value.length)]

/-- C8 witness: a concrete `Insert` record and a concrete tombstone
round-trip through the byte layout. -/
theorem record_layout_roundtrip_witness :
    deserialize (Record.mk RecordTypeInsert [1, 2] [3]).serialize =
      some (Record.mk RecordTypeInsert [1, 2] [3]) :=
  (record_layout_roundtrip (Record.mk RecordTypeInsert [1, 2] [3])
    ⟨Or.inl rfl, by decide, by decide⟩).1

/-- C9 (amended): after `Close`, the operations that check the closed flag —
`ReadPage`, `WritePage`, `NewPage`, `FreePage`, `Flush`, `GetSize` — fail with
`PagerClosed`, and a second `Close` is a no-op returning success; but
`WriteAtOffset` and `ReadAtOffset` perform no closed check and surface an I/O
error from the closed OS file instead, while `GetNumPages` and
`GetFreeListID` return 0 and `SetFreeListID` is a silent no-op — none of
these three can return an error at all. -/
theorem pager_closed_spec (p : Pager) (hc : p.isClosed = true) (hf : p.file = none) :
    (∀ pid, p.readPage pid = .error .pagerClosed) ∧
    (∀ page, p.writePage page = .error .pagerClosed) ∧
    p.newPage = .error .pagerClosed ∧
    (∀ pid, p.freePage pid = .error .pagerClosed) ∧
    p.flush = .error .pagerClosed ∧
    p.getSize = .error .pagerClosed ∧
    (∀ off data, p.writeAtOffset off data = .error .io) ∧
    (∀ off size, p.readAtOffset off size = .error .io) ∧
    p.getNumPages = 0 ∧
    p.getFreeListID = 0 ∧
    (∀ pid, p.setFreeListID pid = p) ∧
    p.close = .ok p := by
  refine ⟨fun pid => ?_, fun page => ?_, ?_, fun pid => ?_, ?_, ?_, fun off data => ?_,
    fun off size => ?_, ?_, ?_, fun pid => ?_, ?_⟩
  · rw [Pager.readPage, if_pos hc]
  · rw [Pager.writePage, if_pos hc]
  · rw [Pager.newPage, if_pos hc]
  · rw [Pager.freePage, if_pos hc]
  · rw [Pager.flush, if_pos hc]
  · rw [Pager.getSize, if_pos hc]
  · simp only [Pager.writeAtOffset, hf]
  · simp only [Pager.readAtOffset, hf]
  · rw [Pager.getNumPages, if_pos hc]
  · rw [Pager.getFreeListID, if_pos hc]
  · rw [Pager.setFreeListID, if_pos hc]
  · rw [Pager.close, if_pos hc]

/-- C9 witness: the pager obtained by closing a fresh pager satisfies the
closed-state behavior; in particular `NewPage` then fails with `PagerClosed`. -/
theorem pager_closed_spec_witness :
    (Pager.mk none 0 0 [] true).newPage = .error .pagerClosed :=
  (pager_closed_spec (Pager.mk none 0 0 [] true) rfl rfl).2.2.1

/-- C9 counterexample: the claim says every public call after `Close` fails
with `PagerClosed`, but `WriteAtOffset` (which never checks the closed flag)
fails with an I/O error from the closed file instead, and `GetNumPages`
returns 0 without any error. -/
theorem pager_closed_counterexample :
    (newPager []).close = .ok (Pager.mk none 0 0 [] true) ∧
    (Pager.mk none 0 0 [] true).writeAtOffset 0 [7] = .error .io ∧
    PagerErr.io ≠ PagerErr.pagerClosed ∧
    (Pager.mk none 0 0 [] true).getNumPages = 0 := by
  refine ⟨by rfl, by rfl, by decide, by decide⟩

/-! ### C4: the split postcondition -/

theorem headD_drop {α : Type} [Inhabited α] (l : List α) (n : Nat) (d : α) (h : n < l.length) :
    (l.drop n).headD d = l.getD n d := by
  rw [List.drop_eq_getElem_cons h, List.getD_eq_getElem l d h]
  rfl

theorem getD_mem_drop {α : Type} (l : List α) (n : Nat) (d : α) (h : n < l.length) :
    l.getD n d ∈ l.drop n := by
  rw [List.drop_eq_getElem_cons h, List.getD_eq_getElem l d h]
  exact List.mem_cons_self _ _

/-- C4: splitting a node with `N ≥ 1` keys at `mid = ⌊N/2⌋`: a leaf sends
`keys[mid..]`/`values[mid..]` to the fresh right sibling, keeps the prefix,
gives the sibling its old `next` and points its own `next` at the sibling,
and promotes (a copy of) the sibling's first key, which remains in the right
leaf; an internal node promotes `keys[mid]`, which is removed from both
halves, sending `keys[mid+1..]`/`children[mid+1..]` right and keeping
`keys[..mid]`/`children[..mid+1]`. -/
theorem splitNode_spec (pg : NPager) (pid : Nat) (n : BNode)
    (hne : n.keys ≠ []) (hfresh : (pg.newPage).1 ≠ pid) :
    (n.nodeType = .leaf →
      ∃ pg2, splitNode pg pid n =
          .ok (pg2, some (n.keys.getD (n.keys.length / 2) [], (pg.newPage).1)) ∧
        pg2.readNode (pg.newPage).1 =
          some ⟨.leaf, n.keys.drop (n.keys.length / 2), n.values.drop (n.keys.length / 2), [],
            n.next⟩ ∧
        pg2.readNode pid =
          some ⟨.leaf, n.keys.take (n.keys.length / 2), n.values.take (n.keys.length / 2), [],
            (pg.newPage).1⟩ ∧
        n.keys.getD (n.keys.length / 2) [] ∈ n.keys.drop (n.keys.length / 2)) ∧
    (n.nodeType = .internal →
      ∃ pg2, splitNode pg pid n =
          .ok (pg2, some (n.keys.getD (n.keys.length / 2) [], (pg.newPage).1)) ∧
        pg2.readNode (pg.newPage).1 =
          some ⟨.internal, n.keys.drop (n.keys.length / 2 + 1), [],
            n.children.drop (n.keys.length / 2 + 1), 0⟩ ∧
        pg2.readNode pid =
          some ⟨.internal, n.keys.take (n.keys.length / 2), [],
            n.children.take (n.keys.length / 2 + 1), 0⟩ ∧
        n.keys.take (n.keys.length / 2) ++
          n.keys.getD (n.keys.length / 2) [] :: n.keys.drop (n.keys.length / 2 + 1) = n.keys) := by
  have hlen : 0 < n.keys.length := List.length_pos.mpr hne
  have hmid : n.keys.length / 2 < n.keys.length := Nat.div_lt_self hlen (by omega)
  constructor
  · intro hleaf
    refine ⟨((pg.newPage).2.writeNode pid
      ⟨.leaf, n.keys.take (n.keys.length / 2), n.values.take (n.keys.length / 2), [],
        (pg.newPage).1⟩).writeNode (pg.newPage).1
      ⟨.leaf, n.keys.drop (n.keys.length / 2), n.values.drop (n.keys.length / 2), [],
        n.next⟩, ?_, ?_, ?_, getD_mem_drop _ _ _ hmid⟩
    · rw [splitNode, hleaf]
      rw [headD_drop _ _ _ hmid]
    · rw [NPager.readNode, NPager.writeNode, npLookup, if_pos rfl]
    · rw [NPager.readNode, NPager.writeNode, npLookup, if_neg hfresh, NPager.writeNode,
        npLookup, if_pos rfl]
  · intro hint
    refine ⟨((pg.newPage).2.writeNode pid
      ⟨.internal, n.keys.take (n.keys.length / 2), [],
        n.children.take (n.keys.length / 2 + 1), 0⟩).writeNode (pg.newPage).1
      ⟨.internal, n.keys.drop (n.keys.length / 2 + 1), [],
        n.children.drop (n.keys.length / 2 + 1), 0⟩, ?_, ?_, ?_, ?_⟩
    · rw [splitNode, hint]
    · rw [NPager.readNode, NPager.writeNode, npLookup, if_pos rfl]
    · rw [NPager.readNode, NPager.writeNode, npLookup, if_neg hfresh, NPager.writeNode,
        npLookup, if_pos rfl]
    · conv_rhs => rw [← List.take_append_drop (n.keys.length / 2) n.keys]
      rw [List.drop_eq_getElem_cons hmid, List.getD_eq_getElem n.keys [] hmid]

/-- C4 witness: splitting a concrete two-key leaf. -/
theorem splitNode_spec_witness :
    ∃ pg2, splitNode ⟨[(1, ⟨.leaf, [[1], [2]], [10, 20], [], 0⟩)], 2, []⟩ 1
        ⟨.leaf, [[1], [2]], [10, 20], [], 0⟩ =
        .ok (pg2, some ([2], 2)) ∧
      pg2.readNode 2 = some ⟨.leaf, [[2]], [20], [], 0⟩ ∧
      pg2.readNode 1 = some ⟨.leaf, [[1]], [10], [], 2⟩ ∧
      ([2] : List Nat) ∈ [[2]] := by
  have h := (splitNode_spec ⟨[(1, ⟨.leaf, [[1], [2]], [10, 20], [], 0⟩)], 2, []⟩ 1
    ⟨.leaf, [[1], [2]], [10, 20], [], 0⟩ (by decide) (by decide)).1 rfl
  exact h

/-! ### C5: the size invariant fails on insert -/

/-- C5: the size invariant is NOT maintained by the code.  A single `Insert`
of a 2100-byte key into a fresh index succeeds, yet leaves page 1 — no longer
the root — as an empty leaf whose computed size is `headerSize = 16`, far
below `mergeThreshold`: the oversize one-key leaf splits at `mid = ⌊1/2⌋ = 0`,
so the left half keeps no keys, and insertion never rebalances. -/
theorem size_invariant_violation (k : List Nat) (h : k.length = 2100) :
    ∃ idx2, Index.insert 2 newIndex k 5 InsertMode.upsert = .ok idx2 ∧ idx2.root ≠ 1 ∧
      idx2.readNode 1 = some ⟨.leaf, [], [], [], 2⟩ ∧
      BNode.calculateSize ⟨.leaf, [], [], [], 2⟩ < mergeThreshold := by
  have hsz : splitThreshold < BNode.calculateSize ⟨.leaf, [k], [5], [], 0⟩ := by
    simp [BNode.calculateSize, splitThreshold, pageSize, headerSize, slotSize, valueSize, h]
  have h1 : insertGo 2 ⟨[(1, newLeafNode)], 2, []⟩ 1 k 5 .upsert =
      if splitThreshold < BNode.calculateSize ⟨.leaf, [k], [5], [], 0⟩
      then splitNode ⟨[(1, newLeafNode)], 2, []⟩ 1 ⟨.leaf, [k], [5], [], 0⟩
      else .ok (NPager.writeNode ⟨[(1, newLeafNode)], 2, []⟩ 1 ⟨.leaf, [k], [5], [], 0⟩,
        none) := rfl
  have h2 : insertGo 2 ⟨[(1, newLeafNode)], 2, []⟩ 1 k 5 .upsert =
      .ok (⟨[(2, ⟨.leaf, [k], [5], [], 0⟩), (1, ⟨.leaf, [], [], [], 2⟩), (1, newLeafNode)],
        3, []⟩, some (k, 2)) := by
    rw [h1, if_pos hsz]
    simp [splitNode, NPager.newPage, NPager.writeNode]
  refine ⟨⟨⟨[(3, ⟨.internal, [k], [], [1, 2], 0⟩), (2, ⟨.leaf, [k], [5], [], 0⟩),
      (1, ⟨.leaf, [], [], [], 2⟩), (1, newLeafNode)], 4, []⟩, 3⟩, ?_,
    show (3 : Nat) ≠ 1 by decide, rfl, by decide⟩
  show Index.insert 2 newIndex k 5 .upsert = _
  simp only [Index.insert, newIndex, h2, NPager.newPage, NPager.writeNode]

/-- C5 witness: the violation at the concrete key `[97, 97, …]` (2100 bytes). -/
theorem size_invariant_violation_witness :
    (List.replicate 2100 97).length = 2100 ∧
    (∃ idx2, Index.insert 2 newIndex (List.replicate 2100 97) 5 InsertMode.upsert = .ok idx2 ∧
      idx2.root ≠ 1 ∧ idx2.readNode 1 = some ⟨.leaf, [], [], [], 2⟩ ∧
      BNode.calculateSize ⟨.leaf, [], [], [], 2⟩ < mergeThreshold) :=
  ⟨by simp only [List.length_replicate],
    size_invariant_violation (List.replicate 2100 97) (by simp only [List.length_replicate])⟩

/-! ### C3: machinery — the lexicographic order, leaf chains, tree shape -/

theorem bytesLt_iff (a b : List Nat) : bytesLt a b = true ↔ a < b := by
  induction a generalizing b with
  | nil =>
    cases b with
    | nil => simp [bytesLt, lt_irrefl]
    | cons y bs => simp [bytesLt, List.nil_lt_cons]
  | cons x as ih =>
    cases b with
    | nil =>
      simp only [bytesLt, Bool.false_eq_true, false_iff]
      intro hlt
      exact List.Lex.not_nil_right _ _ hlt
    | cons y bs =>
      simp only [bytesLt]
      constructor
      · intro h
        by_cases hxy : x < y
        · exact List.Lex.rel hxy
        · rw [if_neg hxy] at h
          by_cases hyx : y < x
          · rw [if_pos hyx] at h; cases h
          · rw [if_neg hyx] at h
            have hx : x = y := by omega
            subst hx
            exact List.Lex.cons ((ih bs).mp h)
      · intro h
        cases h with
        | cons htl =>
          have : bytesLt as bs = true := (ih bs).mpr htl
          simp [this, lt_irrefl]
        | rel hr => simp [hr]

theorem bytesLt_false_iff (a b : List Nat) : bytesLt a b = false ↔ b ≤ a := by
  rw [Bool.eq_false_iff]
  simp only [ne_eq, bytesLt_iff]
  exact not_lt

theorem lowerBound_le_length (keys : List (List Nat)) (pred : List Nat → Bool) :
    lowerBound keys pred ≤ keys.length := by
  induction keys with
  | nil => simp [lowerBound]
  | cons k rest ih =>
    rw [lowerBound]
    by_cases h : pred k
    · simp [h]
    · simp only [h, Bool.false_eq_true, if_false, List.length_cons]
      have := ih
      omega

theorem lowerBound_at (keys : List (List Nat)) (pred : List Nat → Bool)
    (h : lowerBound keys pred < keys.length) :
    pred (keys.getD (lowerBound keys pred) []) = true := by
  induction keys with
  | nil => simp [lowerBound] at h
  | cons k rest ih =>
    rw [lowerBound] at h ⊢
    by_cases hk : pred k
    · simp [hk]
    · simp only [hk, Bool.false_eq_true, if_false] at h ⊢
      rw [Nat.add_comm, List.getD_cons_succ]
      refine ih ?_
      simp only [List.length_cons] at h
      omega

theorem lowerBound_take (keys : List (List Nat)) (pred : List Nat → Bool) :
    ∀ k ∈ keys.take (lowerBound keys pred), pred k = false := by
  induction keys with
  | nil => simp
  | cons k rest ih =>
    rw [lowerBound]
    by_cases hk : pred k
    · simp [hk]
    · simp only [hk, Bool.false_eq_true, if_false, Nat.add_comm 1, List.take_succ_cons]
      intro a ha
      rcases List.mem_cons.mp ha with h | h
      · subst h; simpa using hk
      · exact ih a h

theorem bytesLt_trans {a b c : List Nat} (h1 : bytesLt a b = true) (h2 : bytesLt b c = true) :
    bytesLt a c = true := by
  rw [bytesLt_iff] at h1 h2 ⊢
  exact lt_trans h1 h2

theorem bytesLt_lt_of_lt_of_ge {a s b : List Nat} (h1 : bytesLt a s = true)
    (h2 : bytesLt b s = false) : bytesLt a b = true := by
  rw [bytesLt_iff] at h1 ⊢
  rw [bytesLt_false_iff] at h2
  exact lt_of_lt_of_le h1 h2

theorem bytesLt_ge_of_lt_ge {kv s sk : List Nat} (h1 : bytesLt sk s = true)
    (h2 : bytesLt kv s = false) : bytesLt kv sk = false := by
  rw [bytesLt_iff] at h1
  rw [bytesLt_false_iff] at h2 ⊢
  exact le_of_lt (lt_of_lt_of_le h1 h2)

theorem bytesLt_false_trans {a b c : List Nat} (h1 : bytesLt b a = false)
    (h2 : bytesLt c b = false) : bytesLt c a = false := by
  rw [bytesLt_false_iff] at h1 h2 ⊢
  exact le_trans h1 h2

theorem bytesLt_false_of_lt {a b : List Nat} (h : bytesLt a b = true) :
    bytesLt b a = false := by
  rw [bytesLt_iff] at h
  rw [bytesLt_false_iff]
  exact le_of_lt h

theorem chEntries_append (a b : List (Nat × BNode)) :
    chEntries (a ++ b) = chEntries a ++ chEntries b := by
  simp [chEntries]

theorem chEntries_cons (p : Nat) (n : BNode) (rest : List (Nat × BNode)) :
    chEntries ((p, n) :: rest) = n.keys.zip n.values ++ chEntries rest := by
  simp [chEntries]

theorem pairwise_zip (ks : List (List Nat)) (vs : List Nat)
    (h : ks.Pairwise (fun a b => bytesLt a b = true)) :
    (ks.zip vs).Pairwise (fun a b => bytesLt a.1 b.1 = true) := by
  induction ks generalizing vs with
  | nil => simp
  | cons k ks ih =>
    cases vs with
    | nil => simp
    | cons v vs =>
      rw [List.pairwise_cons] at h
      rw [List.zip_cons_cons, List.pairwise_cons]
      refine ⟨?_, ih vs h.2⟩
      intro b hb
      obtain ⟨b1, b2⟩ := b
      exact h.1 b1 (List.of_mem_zip hb).1

theorem chwfgen_package
    (T : Nat → Option (List Nat) → Option (List Nat) → List (Nat × BNode) → Prop)
    (hT : ∀ c lo hi ch, T c lo hi ch → twfPack lo hi ch) :
    ∀ cs lo ss hi ch, ChWFgen T cs lo ss hi ch → twfPack lo hi ch := by
  intro cs
  induction cs with
  | nil =>
    intro lo ss hi ch h
    cases ss with
    | nil => exact False.elim h
    | cons s ss' => exact False.elim h
  | cons c cs' ih =>
    intro lo ss hi ch h
    cases cs' with
    | nil =>
      cases ss with
      | nil => exact hT c lo hi ch h
      | cons s ss' => exact False.elim h
    | cons c2 cs'' =>
      cases ss with
      | nil => exact False.elim h
      | cons s ss' =>
        obtain ⟨ch1, ch2, hch, hlos, hhis, hT1, hrest⟩ := h
        obtain ⟨b1, s1, ne1, l1⟩ := hT c lo (some s) ch1 hT1
        obtain ⟨b2, s2, ne2, l2⟩ := ih (some s) ss' hi ch2 hrest
        subst hch
        rw [twfPack, chEntries_append]
        refine ⟨?_, ?_, by simp [ne1], ?_⟩
        · intro kv hkv
          rcases List.mem_append.mp hkv with hm | hm
          · obtain ⟨blo, bhi⟩ := b1 kv hm
            refine ⟨blo, ?_⟩
            intro e he
            exact bytesLt_trans (bhi s rfl) (hhis e he)
          · obtain ⟨blo, bhi⟩ := b2 kv hm
            refine ⟨?_, bhi⟩
            intro l hl
            exact bytesLt_false_trans (hlos l hl) (blo s rfl)
        · rw [List.pairwise_append]
          refine ⟨s1, s2, ?_⟩
          intro a ha b hb
          exact bytesLt_lt_of_lt_of_ge ((b1 a ha).2 s rfl) ((b2 b hb).1 s rfl)
        · intro pn hpn
          rcases List.mem_append.mp hpn with hm | hm
          · exact l1 pn hm
          · exact l2 pn hm

theorem twf_package (pg : NPager) :
    ∀ h pid lo hi ch, TWF pg h pid lo hi ch → twfPack lo hi ch := by
  intro h
  induction h with
  | zero => intro pid lo hi ch hwf; exact False.elim hwf
  | succ h ih =>
    intro pid lo hi ch hwf
    obtain ⟨-, n, hread, hcase⟩ := hwf
    rcases hcase with ⟨hleaf, hch, hlen, hsort, hbnd⟩ | ⟨hint, hcw⟩
    · subst hch
      rw [twfPack, chEntries_cons]
      refine ⟨?_, ?_, by simp, ?_⟩
      · intro kv hkv
        rw [show chEntries ([] : List (Nat × BNode)) = [] from rfl, List.append_nil] at hkv
        obtain ⟨k, v⟩ := kv
        exact hbnd k (List.of_mem_zip hkv).1
      · rw [show chEntries ([] : List (Nat × BNode)) = [] from rfl, List.append_nil]
        exact pairwise_zip n.keys n.values hsort
      · intro pn hpn
        rcases List.mem_singleton.mp hpn with rfl
        exact ⟨hsort, hlen⟩
    · exact chwfgen_package _ (fun c lo2 hi2 ch2 ht => ih c lo2 hi2 ch2 ht)
        n.children lo n.keys hi ch hcw

theorem chwfgen_descend
    (T : Nat → Option (List Nat) → Option (List Nat) → List (Nat × BNode) → Prop)
    (hT : ∀ c lo hi ch, T c lo hi ch → twfPack lo hi ch) :
    ∀ cs lo ss hi ch, ChWFgen T cs lo ss hi ch → ∀ sk : List Nat,
      ∃ chL chM chR lo2 hi2,
        ch = chL ++ chM ++ chR ∧
        T (cs.getD (lowerBound ss (fun kj => bytesLt sk kj)) 0) lo2 hi2 chM ∧
        (∀ kv ∈ chEntries chL, bytesLt kv.1 sk = true) ∧
        (∀ kv ∈ chEntries chR, bytesLt kv.1 sk = false) := by
  intro cs
  induction cs with
  | nil =>
    intro lo ss hi ch h sk
    cases ss with
    | nil => exact False.elim h
    | cons s ss' => exact False.elim h
  | cons c cs' ih =>
    intro lo ss hi ch h sk
    cases cs' with
    | nil =>
      cases ss with
      | nil =>
        refine ⟨[], ch, [], lo, hi, by simp, ?_, by simp [chEntries], by simp [chEntries]⟩
        simpa [lowerBound] using h
      | cons s ss' => exact False.elim h
    | cons c2 cs'' =>
      cases ss with
      | nil => exact False.elim h
      | cons s ss' =>
        obtain ⟨ch1, ch2, hch, hlos, hhis, hT1, hrest⟩ := h
        by_cases hsk : bytesLt sk s = true
        · refine ⟨[], ch1, ch2, lo, some s, by simp [hch], ?_, by simp [chEntries], ?_⟩
          · simpa [lowerBound, hsk] using hT1
          · intro kv hkv
            have hges := ((chwfgen_package T hT _ _ _ _ _ hrest).1 kv hkv).1 s rfl
            exact bytesLt_ge_of_lt_ge hsk hges
        · obtain ⟨chL', chM, chR, lo2, hi2, hch2, hTm, hL, hR⟩ :=
            ih (some s) ss' hi ch2 hrest sk
          refine ⟨ch1 ++ chL', chM, chR, lo2, hi2, by rw [hch, hch2]; simp, ?_, ?_, hR⟩
          · have hlb : lowerBound (s :: ss') (fun kj => bytesLt sk kj) =
                1 + lowerBound ss' (fun kj => bytesLt sk kj) := by
              simp [lowerBound, hsk]
            rw [hlb, Nat.add_comm, List.getD_cons_succ]
            exact hTm
          · intro kv hkv
            rw [chEntries_append] at hkv
            rcases List.mem_append.mp hkv with hm | hm
            · have hkvs := ((hT c lo (some s) ch1 hT1).1 kv hm).2 s rfl
              have hssk : bytesLt sk s = false := by
                simpa using hsk
              exact bytesLt_lt_of_lt_of_ge hkvs hssk
            · exact hL kv hm

theorem chwfgen_first
    (T : Nat → Option (List Nat) → Option (List Nat) → List (Nat × BNode) → Prop) :
    ∀ cs lo ss hi ch, ChWFgen T cs lo ss hi ch →
      ∃ chM chR lo2 hi2, ch = chM ++ chR ∧ T (cs.getD 0 0) lo2 hi2 chM := by
  intro cs lo ss hi ch h
  cases cs with
  | nil =>
    cases ss with
    | nil => exact False.elim h
    | cons s ss' => exact False.elim h
  | cons c cs' =>
    cases cs' with
    | nil =>
      cases ss with
      | nil => exact ⟨ch, [], lo, hi, by simp, h⟩
      | cons s ss' => exact False.elim h
    | cons c2 cs'' =>
      cases ss with
      | nil => exact False.elim h
      | cons s ss' =>
        obtain ⟨ch1, ch2, hch, hlos, hhis, hT1, hrest⟩ := h
        exact ⟨ch1, ch2, lo, some s, hch, hT1⟩

theorem descendToKey_walk (pg : NPager) :
    ∀ h pid lo hi ch, TWF pg h pid lo hi ch → ∀ (sk : List Nat) fuel, h ≤ fuel →
      ∃ t, t < ch.length ∧
        descendToKey fuel pg pid sk = .ok (ch.getD t (0, newLeafNode)) ∧
        (∀ kv ∈ chEntries (ch.take t), bytesLt kv.1 sk = true) ∧
        (∀ kv ∈ chEntries (ch.drop (t + 1)), bytesLt kv.1 sk = false) := by
  intro h
  induction h with
  | zero => intro pid lo hi ch hwf; exact False.elim hwf
  | succ h ih =>
    intro pid lo hi ch hwf sk fuel hfuel
    obtain ⟨hpid, n, hread, hcase⟩ := hwf
    cases fuel with
    | zero => omega
    | succ f =>
      rcases hcase with ⟨hleaf, hch, hlen, hsort, hbnd⟩ | ⟨hint, hcw⟩
      · subst hch
        refine ⟨0, by simp, ?_, by simp [chEntries], by simp [chEntries]⟩
        simp [descendToKey, hread, hleaf]
      · obtain ⟨chL, chM, chR, lo2, hi2, hch, hTm, hL, hR⟩ :=
          chwfgen_descend _ (fun c lo2 hi2 ch2 ht => twf_package pg h c lo2 hi2 ch2 ht)
            n.children lo n.keys hi ch hcw sk
        obtain ⟨t', ht'len, hrec, hL', hR'⟩ := ih _ lo2 hi2 chM hTm sk f (by omega)
        subst hch
        refine ⟨chL.length + t', by simp; omega, ?_, ?_, ?_⟩
        · rw [show descendToKey (f + 1) pg pid sk =
              descendToKey f pg
                (n.children.getD (lowerBound n.keys (fun kj => bytesLt sk kj)) 0) sk from by
            simp [descendToKey, hread, hint], hrec]
          rw [List.append_assoc, List.getD_append_right _ _ _ _ (by omega),
            Nat.add_sub_cancel_left, List.getD_append _ _ _ _ ht'len]
        · intro kv hkv
          rw [List.append_assoc, List.take_append_eq_append_take,
            List.take_of_length_le (by omega),
            Nat.add_sub_cancel_left, List.take_append_eq_append_take,
            show t' - chM.length = 0 from by omega, List.take_zero, List.append_nil,
            chEntries_append] at hkv
          rcases List.mem_append.mp hkv with hm | hm
          · exact hL kv hm
          · exact hL' kv hm
        · intro kv hkv
          rw [List.append_assoc, List.drop_append_eq_append_drop,
            List.drop_eq_nil_of_le (by omega),
            List.nil_append, show chL.length + t' + 1 - chL.length = t' + 1 from by omega,
            List.drop_append_eq_append_drop, show t' + 1 - chM.length = 0 from by omega,
            List.drop_zero, chEntries_append] at hkv
          rcases List.mem_append.mp hkv with hm | hm
          · exact hR' kv hm
          · exact hR kv hm

theorem descendFirst_walk (pg : NPager) :
    ∀ h pid lo hi ch, TWF pg h pid lo hi ch → ∀ fuel, h ≤ fuel →
      descendFirst fuel pg pid = .ok (ch.getD 0 (0, newLeafNode)) := by
  intro h
  induction h with
  | zero => intro pid lo hi ch hwf; exact False.elim hwf
  | succ h ih =>
    intro pid lo hi ch hwf fuel hfuel
    obtain ⟨hpid, n, hread, hcase⟩ := hwf
    cases fuel with
    | zero => omega
    | succ f =>
      rcases hcase with ⟨hleaf, hch, hlen, hsort, hbnd⟩ | ⟨hint, hcw⟩
      · subst hch
        simp [descendFirst, hread, hleaf]
      · obtain ⟨chM, chR, lo2, hi2, hch, hTm⟩ := chwfgen_first _ n.children lo n.keys hi ch hcw
        have hrec := ih _ lo2 hi2 chM hTm f (by omega)
        have hne : chM ≠ [] := (twf_package pg h _ _ _ _ hTm).2.2.1
        subst hch
        rw [show descendFirst (f + 1) pg pid = descendFirst f pg (n.children.getD 0 0) from by
            simp [descendFirst, hread, hint], hrec]
        cases chM with
        | nil => exact absurd rfl hne
        | cons m ms => rfl

theorem remEntries_zero (ch : List (Nat × BNode)) : remEntries ch 0 = chEntries ch := by
  cases ch with
  | nil => rfl
  | cons pn rest =>
    obtain ⟨p, n⟩ := pn
    rw [remEntries, List.drop_zero, chEntries_cons]

theorem zip_drop_cons (ks : List (List Nat)) (vs : List Nat) (t : Nat)
    (hlen : vs.length = ks.length) (ht : t < ks.length) :
    (ks.zip vs).drop t = (ks.getD t [], vs.getD t 0) :: (ks.zip vs).drop (t + 1) := by
  have hzlen : (ks.zip vs).length = ks.length := by
    rw [List.length_zip, hlen, min_self]
  rw [List.drop_eq_getElem_cons (by omega)]
  congr 1
  rw [List.getElem_zip, List.getD_eq_getElem _ _ ht, List.getD_eq_getElem _ _ (by omega)]

theorem skipEmpty_spec (pg : NPager) :
    ∀ ch t, chainWF pg ch →
      (skipEmpty ch t = none → remEntries ch t = []) ∧
      (∀ p' n' rest' t', skipEmpty ch t = some ((p', n'), rest', t') →
        chainWF pg ((p', n') :: rest') ∧ t' < n'.keys.length ∧
          remEntries ch t = remEntries ((p', n') :: rest') t' ∧
          ((p', n') :: rest').length ≤ ch.length) := by
  intro ch
  induction ch with
  | nil =>
    intro t _
    refine ⟨fun _ => rfl, fun p' n' rest' t' h => ?_⟩
    rw [skipEmpty] at h
    cases h
  | cons pn ch' ih =>
    intro t hwf
    obtain ⟨q, m⟩ := pn
    obtain ⟨hq0, hread, htype, hlen, hnext, hwf'⟩ := hwf
    by_cases ht : t < m.keys.length
    · refine ⟨fun h => ?_, fun p' n' rest' t' h => ?_⟩
      · rw [skipEmpty, if_pos ht] at h
        cases h
      · rw [skipEmpty, if_pos ht] at h
        simp only [Option.some.injEq, Prod.mk.injEq] at h
        obtain ⟨⟨rfl, rfl⟩, rfl, rfl⟩ := h
        exact ⟨⟨hq0, hread, htype, hlen, hnext, hwf'⟩, ht, rfl, le_refl _⟩
    · have hzn : (m.keys.zip m.values).drop t = [] := by
        refine List.drop_eq_nil_of_le ?_
        rw [List.length_zip, hlen, min_self]
        omega
      refine ⟨fun h => ?_, fun p' n' rest' t' h => ?_⟩
      · rw [skipEmpty, if_neg ht] at h
        rw [remEntries, hzn, List.nil_append, ← remEntries_zero, (ih 0 hwf').1 h]
      · rw [skipEmpty, if_neg ht] at h
        obtain ⟨hw2, ht2, hrem2, hlen2⟩ := (ih 0 hwf').2 p' n' rest' t' h
        refine ⟨hw2, ht2, ?_, by simp only [List.length_cons] at hlen2 ⊢; omega⟩
        rw [remEntries, hzn, List.nil_append, ← remEntries_zero, hrem2]

theorem cursorNext_red (idx : Index) (ek : Option (List Nat)) (p : Nat) (n : BNode)
    (t f : Nat) (hread : idx.pager.readNode p = some n) :
    cursorNext (f + 1) idx ⟨p, ek, t, false⟩ =
      if t < n.keys.length then
        match ek with
        | some e =>
          if !bytesLt (n.keys.getD t []) e then .ok (none, ⟨p, ek, t, true⟩)
          else .ok (some (n.keys.getD t [], n.values.getD t 0), ⟨p, ek, t + 1, false⟩)
        | none => .ok (some (n.keys.getD t [], n.values.getD t 0), ⟨p, ek, t + 1, false⟩)
      else if n.next = 0 then .ok (none, ⟨0, ek, 0, true⟩)
      else cursorNext f idx ⟨n.next, ek, 0, false⟩ := by
  have hidx : idx.readNode p = some n := hread
  simp only [cursorNext, hidx, Bool.false_eq_true, if_false]

theorem cursorNext_walk (idx : Index) (ek : Option (List Nat)) :
    ∀ rest p n t fuel, chainWF idx.pager ((p, n) :: rest) →
      rest.length + 1 < fuel →
      (skipEmpty ((p, n) :: rest) t = none →
        cursorNext fuel idx ⟨p, ek, t, false⟩ = .ok (none, ⟨0, ek, 0, true⟩)) ∧
      (∀ p' n' rest' t', skipEmpty ((p, n) :: rest) t = some ((p', n'), rest', t') →
        (∀ e, ek = some e → bytesLt (n'.keys.getD t' []) e = false →
          cursorNext fuel idx ⟨p, ek, t, false⟩ = .ok (none, ⟨p', ek, t', true⟩)) ∧
        ((ek = none ∨ ∃ e, ek = some e ∧ bytesLt (n'.keys.getD t' []) e = true) →
          cursorNext fuel idx ⟨p, ek, t, false⟩ =
            .ok (some (n'.keys.getD t' [], n'.values.getD t' 0), ⟨p', ek, t' + 1, false⟩))) := by
  intro rest
  induction rest with
  | nil =>
    intro p n t fuel hwf hfuel
    obtain ⟨hp0, hread, htype, hlen, hnext, -⟩ := hwf
    cases fuel with
    | zero => omega
    | succ f =>
      rw [cursorNext_red idx ek p n t f hread]
      by_cases ht : t < n.keys.length
      · refine ⟨fun h => ?_, ?_⟩
        · rw [skipEmpty, if_pos ht] at h
          cases h
        intro p' n' rest' t' h
        rw [skipEmpty, if_pos ht] at h
        simp only [Option.some.injEq, Prod.mk.injEq] at h
        obtain ⟨⟨rfl, rfl⟩, rfl, rfl⟩ := h
        rw [if_pos ht]
        constructor
        · intro e hek hke
          subst hek
          rw [List.getD_eq_getElem?_getD] at hke
          simp [hke]
        · intro hcase
          rcases hcase with rfl | ⟨e, rfl, hke⟩
          · rfl
          · rw [List.getD_eq_getElem?_getD] at hke
            simp [hke]
      · refine ⟨fun _ => ?_, fun p' n' rest' t' h => ?_⟩
        · rw [if_neg ht, if_pos hnext]
        · rw [skipEmpty, if_neg ht, skipEmpty] at h
          cases h
  | cons pn2 rest2 ih =>
    intro p n t fuel hwf hfuel
    obtain ⟨q2, m2⟩ := pn2
    obtain ⟨hp0, hread, htype, hlen, hnext, hwf2⟩ := hwf
    cases fuel with
    | zero => omega
    | succ f =>
      rw [cursorNext_red idx ek p n t f hread]
      by_cases ht : t < n.keys.length
      · refine ⟨fun h => ?_, ?_⟩
        · rw [skipEmpty, if_pos ht] at h
          cases h
        intro p' n' rest' t' h
        rw [skipEmpty, if_pos ht] at h
        simp only [Option.some.injEq, Prod.mk.injEq] at h
        obtain ⟨⟨rfl, rfl⟩, rfl, rfl⟩ := h
        rw [if_pos ht]
        constructor
        · intro e hek hke
          subst hek
          rw [List.getD_eq_getElem?_getD] at hke
          simp [hke]
        · intro hcase
          rcases hcase with rfl | ⟨e, rfl, hke⟩
          · rfl
          · rw [List.getD_eq_getElem?_getD] at hke
            simp [hke]
      · have hq2 : m2.next ≠ 0 ∨ True := Or.inr trivial
        have hq0 : q2 ≠ 0 := hwf2.1
        rw [if_neg ht, if_neg (by rw [hnext]; exact hq0), hnext]
        have := ih q2 m2 0 f hwf2 (by simp only [List.length_cons] at hfuel ⊢; omega)
        refine ⟨fun h => ?_, fun p' n' rest' t' h => ?_⟩
        · rw [skipEmpty, if_neg ht] at h
          exact this.1 h
        · rw [skipEmpty, if_neg ht] at h
          exact this.2 p' n' rest' t' h

theorem cursorToList_walk (idx : Index) (ek : Option (List Nat)) :
    ∀ fuel rest p n t, chainWF idx.pager ((p, n) :: rest) →
      (remEntries ((p, n) :: rest) t).length + rest.length + 2 < fuel →
      cursorToList fuel idx ⟨p, ek, t, false⟩ =
        .ok (ekTake ek (remEntries ((p, n) :: rest) t)) := by
  intro fuel
  induction fuel with
  | zero => intro rest p n t _ h; omega
  | succ f ih =>
    intro rest p n t hwf hfuel
    have hnx := cursorNext_walk idx ek rest p n t (f + 1) hwf (by omega)
    cases hskip : skipEmpty ((p, n) :: rest) t with
    | none =>
      have h1 := hnx.1 hskip
      have hrem := (skipEmpty_spec idx.pager ((p, n) :: rest) t hwf).1 hskip
      rw [hrem]
      simp only [cursorToList, h1]
      cases ek <;> simp [ekTake]
    | some x =>
      obtain ⟨⟨p', n'⟩, rest', t'⟩ := x
      obtain ⟨hwf', ht', hrem, hlen'⟩ :=
        (skipEmpty_spec idx.pager _ t hwf).2 p' n' rest' t' hskip
      have hlen'eq : n'.values.length = n'.keys.length := hwf'.2.2.2.1
      have hzc := zip_drop_cons n'.keys n'.values t' hlen'eq ht'
      have hremc : remEntries ((p, n) :: rest) t =
          (n'.keys.getD t' [], n'.values.getD t' 0) ::
            remEntries ((p', n') :: rest') (t' + 1) := by
        rw [hrem, remEntries, remEntries, hzc, List.cons_append]
      have e1 : (remEntries ((p, n) :: rest) t).length =
          (remEntries ((p', n') :: rest') (t' + 1)).length + 1 := by
        rw [hremc, List.length_cons]
      have e2 : rest'.length ≤ rest.length := by
        simp only [List.length_cons] at hlen'
        omega
      cases ek with
      | none =>
        have hemit := (hnx.2 p' n' rest' t' hskip).2 (Or.inl rfl)
        simp only [cursorToList, hemit]
        rw [ih rest' p' n' (t' + 1) hwf' (by omega), hremc]
        simp [ekTake]
      | some e =>
        by_cases hke : bytesLt (n'.keys.getD t' []) e = true
        · have hemit := (hnx.2 p' n' rest' t' hskip).2 (Or.inr ⟨e, rfl, hke⟩)
          simp only [cursorToList, hemit]
          rw [ih rest' p' n' (t' + 1) hwf' (by omega), hremc]
          rw [List.getD_eq_getElem?_getD] at hke
          simp [ekTake, List.takeWhile_cons, hke]
        · have hstop := (hnx.2 p' n' rest' t' hskip).1 e rfl (by simpa using hke)
          simp only [cursorToList, hstop]
          rw [hremc]
          rw [List.getD_eq_getElem?_getD] at hke
          simp [ekTake, List.takeWhile_cons, hke]

theorem zip_drop_comm (l1 : List (List Nat)) (l2 : List Nat) (n : Nat) :
    (l1.zip l2).drop n = (l1.drop n).zip (l2.drop n) := by
  induction l1 generalizing l2 n with
  | nil => simp
  | cons a l1 ih =>
    cases l2 with
    | nil => simp
    | cons b l2 =>
      cases n with
      | zero => simp
      | succ m => simpa using ih l2 m

theorem zip_take_comm (l1 : List (List Nat)) (l2 : List Nat) (n : Nat) :
    (l1.zip l2).take n = (l1.take n).zip (l2.take n) := by
  induction l1 generalizing l2 n with
  | nil => simp
  | cons a l1 ih =>
    cases l2 with
    | nil => simp
    | cons b l2 =>
      cases n with
      | zero => simp
      | succ m => simpa using ih l2 m

theorem takeWhile_eq_filter_sorted (e : List Nat) :
    ∀ l : List (List Nat × Nat), l.Pairwise (fun a b => bytesLt a.1 b.1 = true) →
      l.takeWhile (fun kv => bytesLt kv.1 e) = l.filter (fun kv => bytesLt kv.1 e) := by
  intro l
  induction l with
  | nil => simp
  | cons kv rest ih =>
    intro hs
    rw [List.pairwise_cons] at hs
    by_cases hke : bytesLt kv.1 e = true
    · rw [List.takeWhile_cons, List.filter_cons]
      simp only [hke, if_true, ih hs.2]
    · have hke' : bytesLt kv.1 e = false := by simpa using hke
      rw [List.takeWhile_cons, List.filter_cons, hke']
      simp only [Bool.false_eq_true, if_false, cond_false]
      have : rest.filter (fun kv => bytesLt kv.1 e) = [] := by
        rw [List.filter_eq_nil_iff]
        intro a ha
        have h1 : bytesLt kv.1 a.1 = true := hs.1 a ha
        rw [bytesLt_false_iff] at hke'
        rw [bytesLt_iff] at h1
        simp only [Bool.not_eq_true]
        rw [bytesLt_false_iff]
        exact le_trans hke' (le_of_lt h1)
      rw [this]

theorem filter_range_decomp (s : List Nat) (ek : Option (List Nat))
    (E1 E2 : List (List Nat × Nat))
    (h1 : ∀ kv ∈ E1, bytesLt kv.1 s = true)
    (h2 : ∀ kv ∈ E2, bytesLt kv.1 s = false)
    (hs : E2.Pairwise (fun a b => bytesLt a.1 b.1 = true)) :
    (E1 ++ E2).filter (fun kv => inRangeB (some s) ek kv.1) = ekTake ek E2 := by
  rw [List.filter_append]
  have hE1 : E1.filter (fun kv => inRangeB (some s) ek kv.1) = [] := by
    rw [List.filter_eq_nil_iff]
    intro kv hkv
    simp [inRangeB, h1 kv hkv]
  have hE2 : E2.filter (fun kv => inRangeB (some s) ek kv.1) =
      E2.filter (fun kv => match ek with | none => true | some e => bytesLt kv.1 e) := by
    refine List.filter_congr ?_
    intro kv hkv
    simp [inRangeB, h2 kv hkv]
  rw [hE1, hE2, List.nil_append]
  cases ek with
  | none => simp [ekTake]
  | some e => rw [ekTake, takeWhile_eq_filter_sorted e E2 hs]

theorem filter_range_none (ek : Option (List Nat)) (E : List (List Nat × Nat))
    (hs : E.Pairwise (fun a b => bytesLt a.1 b.1 = true)) :
    E.filter (fun kv => inRangeB none ek kv.1) = ekTake ek E := by
  cases ek with
  | none => simp [inRangeB, ekTake]
  | some e =>
    rw [ekTake, takeWhile_eq_filter_sorted e E hs]
    refine List.filter_congr ?_
    intro kv _
    simp [inRangeB]

theorem lowerBound_drop_ge (s : List Nat) :
    ∀ keys : List (List Nat), keys.Pairwise (fun a b => bytesLt a b = true) →
      ∀ k ∈ keys.drop (lowerBound keys (fun kj => !bytesLt kj s)), bytesLt k s = false := by
  intro keys
  induction keys with
  | nil => simp
  | cons k0 ks ih =>
    intro hsort k hk
    rw [List.pairwise_cons] at hsort
    rw [lowerBound] at hk
    by_cases hp : (!bytesLt k0 s) = true
    · rw [if_pos hp, List.drop_zero] at hk
      have hk0 : bytesLt k0 s = false := by simpa using hp
      rcases List.mem_cons.mp hk with rfl | hmem
      · exact hk0
      · have hlt : bytesLt k0 k = true := hsort.1 k hmem
        rw [bytesLt_false_iff] at hk0 ⊢
        rw [bytesLt_iff] at hlt
        exact le_trans hk0 (le_of_lt hlt)
    · rw [if_neg hp, Nat.add_comm, List.drop_succ_cons] at hk
      exact ih hsort.2 k hk

theorem chainWF_drop (pg : NPager) :
    ∀ ch k, chainWF pg ch → chainWF pg (ch.drop k) := by
  intro ch
  induction ch with
  | nil => intro k _; rw [List.drop_nil]; trivial
  | cons pn rest ih =>
    intro k hwf
    cases k with
    | zero => exact hwf
    | succ m =>
      rw [List.drop_succ_cons]
      obtain ⟨p, n⟩ := pn
      exact ih m hwf.2.2.2.2.2

/-- C3: range scans are correct.  Over any index state satisfying the spec's
structural invariants K and N (`IndexWF`: the pages form a B+ tree with the
separator discipline, whose leaf fragment in order is a `next`-linked chain
ending in 0 — what every reachable state maintains), and for every choice of
optional `startKey`/`endKey`, `NewCursor` succeeds, and draining the cursor
with `Next` returns exactly the stored (key, value) pairs with
`startKey ≤ key < endKey` (each bound enforced only when present), in
strictly ascending lexicographic byte order, each exactly once: the emitted
list is the order-preserving filter of the stored entries, which is strictly
sorted. -/
theorem cursor_range_scan (idx : Index) (h : Nat) (ch : List (Nat × BNode))
    (sk ek : Option (List Nat)) (fuel : Nat) (hwf : IndexWF idx h ch)
    (hfuel : h + (chEntries ch).length + ch.length + 2 ≤ fuel) :
    ∃ c, Index.newCursor fuel idx sk ek = .ok c ∧
      cursorToList fuel idx c =
        .ok ((chEntries ch).filter (fun kv => inRangeB sk ek kv.1)) ∧
      ((chEntries ch).filter (fun kv => inRangeB sk ek kv.1)).Pairwise
        (fun a b => bytesLt a.1 b.1 = true) := by
  rcases hwf with ⟨hroot, rfl⟩ | ⟨htwf, hchain⟩
  · refine ⟨⟨0, ek, 0, true⟩, ?_, ?_, by simp [chEntries]⟩
    · rw [Index.newCursor.eq_def, if_pos hroot]
    · cases fuel with
      | zero => omega
      | succ f =>
        have hcn : cursorNext (f + 1) idx ⟨0, ek, 0, true⟩ =
            .ok (none, ⟨0, ek, 0, true⟩) := by
          simp [cursorNext]
        simp [cursorToList, hcn, chEntries]
  · obtain ⟨hbounds, hsorted, hne, hleaves⟩ := twf_package idx.pager h idx.root none none ch htwf
    have hroot0 : idx.root ≠ 0 := by
      cases h with
      | zero => exact False.elim htwf
      | succ h2 => exact htwf.1
    cases ch with
    | nil => exact absurd rfl hne
    | cons pn rest =>
    obtain ⟨p0, n0⟩ := pn
    have hp0 : p0 ≠ 0 := hchain.1
    cases sk with
    | none =>
      have hdf := descendFirst_walk idx.pager h idx.root none none _ htwf fuel (by omega)
      rw [List.getD_cons_zero] at hdf
      refine ⟨⟨p0, ek, 0, false⟩, ?_, ?_, hsorted.sublist (List.filter_sublist _)⟩
      · rw [Index.newCursor.eq_def, if_neg hroot0]
        simp only [hdf]
        simp [hp0]
      · have hwalk := cursorToList_walk idx ek fuel rest p0 n0 0 hchain (by
          rw [remEntries_zero]
          simp only [List.length_cons] at hfuel
          omega)
        rw [hwalk, remEntries_zero, filter_range_none ek _ hsorted]
    | some s =>
      obtain ⟨t, htlen, hdk, hsandL, hsandR⟩ :=
        descendToKey_walk idx.pager h idx.root none none _ htwf s fuel (by omega)
      rcases hget : ((p0, n0) :: rest).getD t (0, newLeafNode) with ⟨pt, nt⟩
      rw [hget] at hdk
      have hdropt : ((p0, n0) :: rest).drop t =
          (pt, nt) :: ((p0, n0) :: rest).drop (t + 1) := by
        rw [List.drop_eq_getElem_cons htlen]
        congr 1
        rw [← List.getD_eq_getElem _ (0, newLeafNode) htlen, hget]
      have hchaint : chainWF idx.pager ((pt, nt) :: ((p0, n0) :: rest).drop (t + 1)) := by
        rw [← hdropt]
        exact chainWF_drop idx.pager _ t hchain
      have hmem : (pt, nt) ∈ (p0, n0) :: rest := by
        rw [← hget, List.getD_eq_getElem _ _ htlen]
        exact List.getElem_mem htlen
      have hntsort := (hleaves (pt, nt) hmem).1
      have hntlen : nt.values.length = nt.keys.length := (hleaves (pt, nt) hmem).2
      have hzlen : (nt.keys.zip nt.values).length = nt.keys.length := by
        rw [List.length_zip, hntlen, min_self]
      have hdecomp : chEntries ((p0, n0) :: rest) =
          chEntries (((p0, n0) :: rest).take t) ++ (nt.keys.zip nt.values ++
            chEntries (((p0, n0) :: rest).drop (t + 1))) := by
        conv_lhs => rw [← List.take_append_drop t ((p0, n0) :: rest)]
        rw [chEntries_append, hdropt, chEntries_cons]
      have hE1b : ∀ kv ∈ (nt.keys.zip nt.values).take
          (lowerBound nt.keys (fun kj => !bytesLt kj s)), bytesLt kv.1 s = true := by
        intro kv hkv
        rw [zip_take_comm] at hkv
        have := lowerBound_take nt.keys (fun kj => !bytesLt kj s) kv.1 (List.of_mem_zip hkv).1
        simpa using this
      have hE2a : ∀ kv ∈ (nt.keys.zip nt.values).drop
          (lowerBound nt.keys (fun kj => !bytesLt kj s)), bytesLt kv.1 s = false := by
        intro kv hkv
        rw [zip_drop_comm] at hkv
        exact lowerBound_drop_ge s nt.keys hntsort kv.1 (List.of_mem_zip hkv).1
      by_cases hkc : nt.keys.length ≤ lowerBound nt.keys (fun kj => !bytesLt kj s)
      · have hztk : (nt.keys.zip nt.values).take
            (lowerBound nt.keys (fun kj => !bytesLt kj s)) = nt.keys.zip nt.values := by
          refine List.take_of_length_le ?_
          omega
        have hnext : nt.next = (match ((p0, n0) :: rest).drop (t + 1) with
            | [] => 0 | (q, _) :: _ => q) := hchaint.2.2.2.2.1
        cases hdt : ((p0, n0) :: rest).drop (t + 1) with
        | nil =>
          rw [hdt] at hnext
          have hfilter : (chEntries ((p0, n0) :: rest)).filter
              (fun kv => inRangeB (some s) ek kv.1) = [] := by
            rw [List.filter_eq_nil_iff]
            intro kv hkv
            rw [hdecomp, hdt, show chEntries ([] : List (Nat × BNode)) = [] from rfl,
              List.append_nil] at hkv
            have hlt : bytesLt kv.1 s = true := by
              rcases List.mem_append.mp hkv with hm | hm
              · exact hsandL kv hm
              · rw [← hztk] at hm
                exact hE1b kv hm
            simp [inRangeB, hlt]
          refine ⟨⟨0, ek, 0, true⟩, ?_, ?_, by rw [hfilter]; exact List.Pairwise.nil⟩
          · rw [Index.newCursor.eq_def, if_neg hroot0]
            simp only [hdk]
            rw [if_pos hkc, hnext]
            simp
          · cases fuel with
            | zero => omega
            | succ f =>
              have hcn : cursorNext (f + 1) idx ⟨0, ek, 0, true⟩ =
                  .ok (none, ⟨0, ek, 0, true⟩) := by
                simp [cursorNext]
              simp [cursorToList, hcn, hfilter]
        | cons qn rest2 =>
          obtain ⟨q, nq⟩ := qn
          rw [hdt] at hnext
          have hchain2 : chainWF idx.pager ((q, nq) :: rest2) := by
            rw [hdt] at hchaint
            exact hchaint.2.2.2.2.2
          have hq0 : q ≠ 0 := hchain2.1
          have hEeq : chEntries ((p0, n0) :: rest) =
              (chEntries (((p0, n0) :: rest).take t) ++ nt.keys.zip nt.values) ++
                chEntries ((q, nq) :: rest2) := by
            rw [hdecomp, hdt, List.append_assoc]
          have hfilter : (chEntries ((p0, n0) :: rest)).filter
              (fun kv => inRangeB (some s) ek kv.1) =
              ekTake ek (chEntries ((q, nq) :: rest2)) := by
            rw [hEeq]
            refine filter_range_decomp s ek _ _ ?_ ?_ ?_
            · intro kv hkv
              rcases List.mem_append.mp hkv with hm | hm
              · exact hsandL kv hm
              · rw [← hztk] at hm
                exact hE1b kv hm
            · intro kv hkv
              refine hsandR kv ?_
              rw [hdt]
              exact hkv
            · have := hsorted
              rw [hEeq] at this
              exact this.sublist (List.sublist_append_right _ _)
          refine ⟨⟨q, ek, 0, false⟩, ?_, ?_, hsorted.sublist (List.filter_sublist _)⟩
          · rw [Index.newCursor.eq_def, if_neg hroot0]
            simp only [hdk]
            rw [if_pos hkc, hnext]
            simp [hq0]
          · have hlenE : (chEntries ((q, nq) :: rest2)).length ≤
                (chEntries ((p0, n0) :: rest)).length := by
              rw [hEeq, List.length_append]
              omega
            have hlenr : rest2.length ≤ rest.length := by
              have := congrArg List.length hdt
              rw [List.length_drop] at this
              simp only [List.length_cons] at this ⊢
              omega
            have hwalk := cursorToList_walk idx ek fuel rest2 q nq 0 hchain2 (by
              rw [remEntries_zero]
              simp only [List.length_cons] at hfuel
              omega)
            rw [hwalk, remEntries_zero, hfilter]
      · have hpt0 : pt ≠ 0 := hchaint.1
        have hEeq : chEntries ((p0, n0) :: rest) =
            (chEntries (((p0, n0) :: rest).take t) ++ (nt.keys.zip nt.values).take
                (lowerBound nt.keys (fun kj => !bytesLt kj s))) ++
              ((nt.keys.zip nt.values).drop
                (lowerBound nt.keys (fun kj => !bytesLt kj s)) ++
                chEntries (((p0, n0) :: rest).drop (t + 1))) := by
          rw [hdecomp]
          conv_lhs => rw [← List.take_append_drop
            (lowerBound nt.keys (fun kj => !bytesLt kj s)) (nt.keys.zip nt.values)]
          rw [List.append_assoc, ← List.append_assoc, ← List.append_assoc,
            List.append_assoc]
        have hfilter : (chEntries ((p0, n0) :: rest)).filter
            (fun kv => inRangeB (some s) ek kv.1) =
            ekTake ek ((nt.keys.zip nt.values).drop
              (lowerBound nt.keys (fun kj => !bytesLt kj s)) ++
              chEntries (((p0, n0) :: rest).drop (t + 1))) := by
          rw [hEeq]
          refine filter_range_decomp s ek _ _ ?_ ?_ ?_
          · intro kv hkv
            rcases List.mem_append.mp hkv with hm | hm
            · exact hsandL kv hm
            · exact hE1b kv hm
          · intro kv hkv
            rcases List.mem_append.mp hkv with hm | hm
            · exact hE2a kv hm
            · exact hsandR kv hm
          · have := hsorted
            rw [hEeq] at this
            exact this.sublist (List.sublist_append_right _ _)
        refine ⟨⟨pt, ek, lowerBound nt.keys (fun kj => !bytesLt kj s), false⟩, ?_, ?_,
          hsorted.sublist (List.filter_sublist _)⟩
        · rw [Index.newCursor.eq_def, if_neg hroot0]
          simp only [hdk]
          rw [if_neg hkc]
          simp [hpt0]
        · have hlenE : ((nt.keys.zip nt.values).drop
              (lowerBound nt.keys (fun kj => !bytesLt kj s))).length +
              (chEntries (((p0, n0) :: rest).drop (t + 1))).length ≤
              (chEntries ((p0, n0) :: rest)).length := by
            have := congrArg List.length hEeq
            simp only [List.length_append] at this
            omega
          have hlenr : (((p0, n0) :: rest).drop (t + 1)).length ≤ rest.length := by
            rw [List.length_drop]
            simp only [List.length_cons]
            omega
          have hwalk := cursorToList_walk idx ek fuel (((p0, n0) :: rest).drop (t + 1))
            pt nt (lowerBound nt.keys (fun kj => !bytesLt kj s)) hchaint (by
              rw [show remEntries ((pt, nt) :: ((p0, n0) :: rest).drop (t + 1))
                  (lowerBound nt.keys (fun kj => !bytesLt kj s)) =
                  (nt.keys.zip nt.values).drop
                    (lowerBound nt.keys (fun kj => !bytesLt kj s)) ++
                    chEntries (((p0, n0) :: rest).drop (t + 1)) from rfl,
                List.length_append]
              simp only [List.length_cons] at hfuel
              omega)
          rw [hwalk, hfilter]
          rfl

theorem witIdx_wf : IndexWF witIdx 2 witCh := by
  refine Or.inr ⟨?_, ?_⟩
  · refine ⟨by decide, witRoot, rfl, Or.inr ⟨rfl, ?_⟩⟩
    refine ⟨[(1, witLeaf1)], [(2, witLeaf2)], rfl, ?_, ?_, ?_, ?_⟩
    · intro l hl
      exact Option.noConfusion hl
    · intro e he
      exact Option.noConfusion he
    · refine ⟨by decide, witLeaf1, rfl, Or.inl ⟨rfl, rfl, rfl,
        List.Pairwise.cons (fun b hb => absurd hb (List.not_mem_nil b)) List.Pairwise.nil, ?_⟩⟩
      intro k hk
      refine ⟨fun l hl => Option.noConfusion hl, fun e he => ?_⟩
      injection he with he2
      subst he2
      simp only [witLeaf1, List.mem_singleton] at hk
      subst hk
      decide
    · refine ⟨by decide, witLeaf2, rfl, Or.inl ⟨rfl, rfl, rfl, by decide, ?_⟩⟩
      intro k hk
      refine ⟨fun l hl => ?_, fun e he => Option.noConfusion he⟩
      injection hl with hl2
      subst hl2
      simp only [witLeaf2, List.mem_cons, List.mem_singleton, List.not_mem_nil, or_false] at hk
      rcases hk with rfl | rfl
      · decide
      · decide
  · exact ⟨by decide, rfl, rfl, rfl, rfl, by decide, rfl, rfl, rfl, rfl, trivial⟩

theorem cursor_range_scan_witness :
    IndexWF witIdx 2 witCh ∧
    (chEntries witCh).filter (fun kv => inRangeB (some [2]) (some [3]) kv.1) = [([2], 20)] ∧
    (∃ c, Index.newCursor 20 witIdx (some [2]) (some [3]) = .ok c ∧
      cursorToList 20 witIdx c =
        .ok ((chEntries witCh).filter (fun kv => inRangeB (some [2]) (some [3]) kv.1)) ∧
      ((chEntries witCh).filter (fun kv => inRangeB (some [2]) (some [3]) kv.1)).Pairwise
        (fun a b => bytesLt a.1 b.1 = true)) :=
  ⟨witIdx_wf, by decide,
    cursor_range_scan witIdx 2 witCh (some [2]) (some [3]) 20 witIdx_wf (by decide)⟩

theorem readNode_writeNode (pg : NPager) (pid : Nat) (n : BNode) (q : Nat) :
    (pg.writeNode pid n).readNode q = if pid = q then some n else pg.readNode q := rfl

theorem readNode_newPage (pg : NPager) (q : Nat) :
    (pg.newPage).2.readNode q = pg.readNode q := by
  rw [NPager.newPage]
  cases pg.freeList <;> rfl

theorem readNode_freePage (pg : NPager) (pid q : Nat) :
    (pg.freePage pid).readNode q = pg.readNode q := rfl

theorem chainWF_preserved (pg pg2 : NPager) :
    ∀ ch, chainWF pg ch → (∀ q ∈ ch.map Prod.fst, pg2.readNode q = pg.readNode q) →
      chainWF pg2 ch := by
  intro ch
  induction ch with
  | nil => intro _ _; trivial
  | cons pn rest ih =>
    intro hwf hq
    obtain ⟨p, n⟩ := pn
    obtain ⟨hp0, hread, htype, hlen, hnext, hrest⟩ := hwf
    refine ⟨hp0, ?_, htype, hlen, hnext, ih hrest ?_⟩
    · rw [hq p (by simp), hread]
    · intro q hqm
      exact hq q (by simp [hqm])

theorem chainCollect_spec (pg : NPager) :
    ∀ rest p n fuel, chainWF pg ((p, n) :: rest) → ((p, n) :: rest).length ≤ fuel →
      chainCollect pg fuel p = chEntries ((p, n) :: rest) := by
  intro rest
  induction rest with
  | nil =>
    intro p n fuel hwf hfuel
    obtain ⟨hp0, hread, htype, hlen, hnext, -⟩ := hwf
    cases fuel with
    | zero => simp at hfuel
    | succ f =>
      simp only [chainCollect, hread]
      rw [if_neg hp0, hnext]
      rw [show chainCollect pg f 0 = [] from by cases f <;> rfl]
      rw [chEntries_cons, show chEntries ([] : List (Nat × BNode)) = [] from rfl]
  | cons pn2 rest2 ih =>
    intro p n fuel hwf hfuel
    obtain ⟨q2, m2⟩ := pn2
    obtain ⟨hp0, hread, htype, hlen, hnext, hwf2⟩ := hwf
    cases fuel with
    | zero => simp at hfuel
    | succ f =>
      simp only [chainCollect, hread]
      rw [if_neg hp0, hnext,
        ih q2 m2 f hwf2 (by simp only [List.length_cons] at hfuel ⊢; omega)]
      simp [chEntries_cons]

theorem chainWF_mem (pg : NPager) :
    ∀ ch, chainWF pg ch → ∀ pn ∈ ch, pn.1 ≠ 0 ∧ pg.readNode pn.1 = some pn.2 ∧
      pn.2.nodeType = .leaf ∧ pn.2.values.length = pn.2.keys.length := by
  intro ch
  induction ch with
  | nil => intro _ pn hpn; cases hpn
  | cons hd rest ih =>
    intro hwf pn hpn
    obtain ⟨p, m⟩ := hd
    obtain ⟨hp0, hread, htype, hlen, hnext, hrest⟩ := hwf
    rcases List.mem_cons.mp hpn with rfl | hmem
    · exact ⟨hp0, hread, htype, hlen⟩
    · exact ih hrest pn hmem

theorem split_chain (pg : NPager) (pid : Nat) (n : BNode) (pg2 : NPager) (sep : List Nat)
    (sid : Nat) (hsid0 : sid ≠ 0)
    (hsplit : splitNode pg pid n = .ok (pg2, some (sep, sid))) :
    ∀ pre post, chainWF pg (pre ++ (pid, n) :: post) →
      (∀ q ∈ (pre ++ (pid, n) :: post).map Prod.fst, q ≠ sid) →
      (∀ q ∈ pre.map Prod.fst, q ≠ pid) →
      (∀ q ∈ post.map Prod.fst, q ≠ pid) →
      chainWF pg2 (pre ++
        (pid, ⟨.leaf, n.keys.take (n.keys.length / 2), n.values.take (n.keys.length / 2),
          [], sid⟩) ::
        (sid, ⟨.leaf, n.keys.drop (n.keys.length / 2), n.values.drop (n.keys.length / 2),
          [], n.next⟩) :: post) ∧
      chEntries (pre ++
        (pid, ⟨.leaf, n.keys.take (n.keys.length / 2), n.values.take (n.keys.length / 2),
          [], sid⟩) ::
        (sid, ⟨.leaf, n.keys.drop (n.keys.length / 2), n.values.drop (n.keys.length / 2),
          [], n.next⟩) :: post) = chEntries (pre ++ (pid, n) :: post) := by
  intro pre post hwf hfresh hpre hpost
  have hinfo := chainWF_mem pg _ hwf (pid, n)
    (List.mem_append.mpr (Or.inr (List.mem_cons_self _ _)))
  have htype : n.nodeType = .leaf := hinfo.2.2.1
  have hlen : n.values.length = n.keys.length := hinfo.2.2.2
  simp only [splitNode, htype] at hsplit
  simp only [Except.ok.injEq, Prod.mk.injEq, Option.some.injEq] at hsplit
  obtain ⟨hpg2, hsep, hsid⟩ := hsplit
  subst hpg2 hsep hsid
  constructor
  · clear hinfo
    revert hwf hfresh hpre
    induction pre with
    | nil =>
      intro hwf hpre hfresh
      obtain ⟨hpid0, hread, htype2, hlen2, hnext, hpost2⟩ := hwf
      have hps : pg.newPage.1 ≠ pid := Ne.symm (hfresh pid (by simp))
      refine ⟨hpid0, ?_, rfl, ?_, rfl, hsid0, ?_, rfl, ?_, hnext, ?_⟩
      · rw [readNode_writeNode, if_neg hps, readNode_writeNode, if_pos rfl]
      · rw [List.length_take, List.length_take, hlen]
      · rw [readNode_writeNode, if_pos rfl]
      · rw [List.length_drop, List.length_drop, hlen]
      · refine chainWF_preserved pg _ post hpost2 ?_
        intro q hq
        have hq_sid : q ≠ pg.newPage.1 := hfresh q (by simp [hq])
        have hq_pid : q ≠ pid := hpost q hq
        rw [readNode_writeNode, if_neg (Ne.symm hq_sid), readNode_writeNode,
          if_neg (Ne.symm hq_pid), readNode_newPage]
    | cons hd pre2 ih =>
      intro hwf hpre hfresh
      obtain ⟨a, m⟩ := hd
      obtain ⟨ha0, haread, hatype, halen, hanext, hrest⟩ := hwf
      have ha_sid : a ≠ pg.newPage.1 := hfresh a (by simp)
      have ha_pid : a ≠ pid := hpre a (by simp)
      refine ⟨ha0, ?_, hatype, halen, ?_,
        ih hrest (fun q hq => hpre q (by simp; right; simpa using hq))
          (fun q hq => hfresh q (by simp; right; simpa using hq))⟩
      · rw [readNode_writeNode, if_neg (Ne.symm ha_sid), readNode_writeNode,
          if_neg (Ne.symm ha_pid), readNode_newPage, haread]
      · cases pre2 with
        | nil => simpa using hanext
        | cons b pre3 => simpa using hanext
  · have hz : (n.keys.take (n.keys.length / 2)).zip (n.values.take (n.keys.length / 2)) ++
        (n.keys.drop (n.keys.length / 2)).zip (n.values.drop (n.keys.length / 2)) =
        n.keys.zip n.values := by
      rw [← zip_take_comm, ← zip_drop_comm, List.take_append_drop]
    simp only [chEntries_append, chEntries_cons]
    rw [← List.append_assoc ((n.keys.take (n.keys.length / 2)).zip
      (n.values.take (n.keys.length / 2))), hz]

theorem chain_ne_internal (pg : NPager) (parent : BNode) (parentID : Nat)
    (hpar : pg.readNode parentID = some parent) (hptype : parent.nodeType = .internal) :
    ∀ ch, chainWF pg ch → ∀ q ∈ ch.map Prod.fst, q ≠ parentID := by
  intro ch hwf q hq he
  subst he
  simp only [List.mem_map] at hq
  obtain ⟨pn, hpn, rfl⟩ := hq
  have hinfo := chainWF_mem pg ch hwf pn hpn
  have heq : some parent = some pn.2 := hpar.symm.trans hinfo.2.1
  injection heq with heq2
  subst heq2
  rw [hinfo.2.2.1] at hptype
  cases hptype

theorem merge_chain (pg : NPager) (parent : BNode) (parentID sepIdx : Nat)
    (hpar : pg.readNode parentID = some parent) (hptype : parent.nodeType = .internal) :
    ∀ pre lid left rid right post,
      chainWF pg (pre ++ (lid, left) :: (rid, right) :: post) →
      (∀ q ∈ pre.map Prod.fst, q ≠ lid) →
      (∀ q ∈ post.map Prod.fst, q ≠ lid) →
      chainWF (((pg.freePage rid).writeNode lid
          (mergeNodes parent left right sepIdx).2).writeNode parentID
          (mergeNodes parent left right sepIdx).1)
        (pre ++ (lid, (mergeNodes parent left right sepIdx).2) :: post) ∧
      chEntries (pre ++ (lid, (mergeNodes parent left right sepIdx).2) :: post) =
        chEntries (pre ++ (lid, left) :: (rid, right) :: post) := by
  intro pre lid left rid right post hwf hpre hpost
  have hlinfo := chainWF_mem pg _ hwf (lid, left)
    (List.mem_append.mpr (Or.inr (List.mem_cons_self _ _)))
  have hltype : left.nodeType = .leaf := hlinfo.2.2.1
  have hllen : left.values.length = left.keys.length := hlinfo.2.2.2
  have hrinfo := chainWF_mem pg _ hwf (rid, right)
    (List.mem_append.mpr (Or.inr (List.mem_cons_of_mem _ (List.mem_cons_self _ _))))
  have hrlen : right.values.length = right.keys.length := hrinfo.2.2.2
  have hml : (mergeNodes parent left right sepIdx).2 =
      { left with
          keys := left.keys ++ right.keys
          values := left.values ++ right.values
          next := right.next } := by
    simp [mergeNodes, hltype]
  have hparne := chain_ne_internal pg parent parentID hpar hptype _ hwf
  constructor
  · have main : ∀ pre2, chainWF pg (pre2 ++ (lid, left) :: (rid, right) :: post) →
        (∀ q ∈ pre2.map Prod.fst, q ≠ lid) →
        (∀ q ∈ (pre2 ++ (lid, left) :: (rid, right) :: post).map Prod.fst, q ≠ parentID) →
        chainWF (((pg.freePage rid).writeNode lid
            (mergeNodes parent left right sepIdx).2).writeNode parentID
            (mergeNodes parent left right sepIdx).1)
          (pre2 ++ (lid, (mergeNodes parent left right sepIdx).2) :: post) := by
      intro pre2
      induction pre2 with
      | nil =>
        intro hwf2 hpre2 hpar2
        obtain ⟨hl0, hlread, hltype2, hllen2, hlnext, hr0, hrread, hrtype, hrlen2, hrnext,
          hpost2⟩ := hwf2
        have hpl : parentID ≠ lid := Ne.symm (hpar2 lid (by simp))
        refine ⟨hl0, ?_, ?_, ?_, ?_, ?_⟩
        · rw [readNode_writeNode, if_neg hpl, readNode_writeNode, if_pos rfl]
        · rw [hml]
          exact hltype2
        · rw [hml]
          simp only [List.length_append]
          omega
        · rw [hml]
          exact hrnext
        · refine chainWF_preserved pg _ post hpost2 ?_
          intro q hq
          have hq_l : q ≠ lid := hpost q hq
          have hq_p : q ≠ parentID := hpar2 q (by simp; right; right; simpa using hq)
          rw [readNode_writeNode, if_neg (Ne.symm hq_p), readNode_writeNode,
            if_neg (Ne.symm hq_l), readNode_freePage]
      | cons hd pre3 ih =>
        intro hwf2 hpre2 hpar2
        obtain ⟨a, m⟩ := hd
        obtain ⟨ha0, haread, hatype, halen, hanext, hrest⟩ := hwf2
        have ha_l : a ≠ lid := hpre2 a (by simp)
        have ha_p : a ≠ parentID := hpar2 a (by simp)
        refine ⟨ha0, ?_, hatype, halen, ?_,
          ih hrest (fun q hq => hpre2 q (by simp; right; simpa using hq))
            (fun q hq => hpar2 q (by simp; right; simpa using hq))⟩
        · rw [readNode_writeNode, if_neg (Ne.symm ha_p), readNode_writeNode,
            if_neg (Ne.symm ha_l), readNode_freePage, haread]
        · cases pre3 with
          | nil => simpa using hanext
          | cons b pre4 => simpa using hanext
    exact main pre hwf hpre hparne
  · have hz : ((mergeNodes parent left right sepIdx).2.keys).zip
        ((mergeNodes parent left right sepIdx).2.values) =
        left.keys.zip left.values ++ right.keys.zip right.values := by
      rw [hml]
      exact List.zip_append hllen.symm
    simp only [chEntries_append, chEntries_cons]
    rw [hz, List.append_assoc]

theorem chain_traverse_spec (idx : Index) (h : Nat) (ch : List (Nat × BNode)) (fuel : Nat)
    (hwf : IndexWF idx h ch) (hne : ch ≠ []) (hfuel : h + ch.length ≤ fuel) :
    ∃ pn, descendFirst fuel idx.pager idx.root = .ok pn ∧
      chainCollect idx.pager fuel pn.1 = chEntries ch ∧
      (chEntries ch).Pairwise (fun a b => bytesLt a.1 b.1 = true) := by
  rcases hwf with ⟨-, rfl⟩ | ⟨htwf, hchain⟩
  · exact absurd rfl hne
  · obtain ⟨-, hsorted, -, -⟩ := twf_package idx.pager h idx.root none none ch htwf
    cases ch with
    | nil => exact absurd rfl hne
    | cons pn0 rest =>
      obtain ⟨p0, n0⟩ := pn0
      have hdf := descendFirst_walk idx.pager h idx.root none none _ htwf fuel (by omega)
      rw [List.getD_cons_zero] at hdf
      refine ⟨(p0, n0), hdf, ?_, hsorted⟩
      exact chainCollect_spec idx.pager rest p0 n0 fuel hchain
        (by simp only [List.length_cons] at hfuel ⊢; omega)

/-- C6: the leaf chain invariant.  First clause: in any state satisfying the
spec's invariants K and N (`IndexWF`), starting at the leftmost leaf (found by
descending first children from the root) and repeatedly following each leaf's
`next` PageID until 0 visits every key stored in the tree exactly once, in
strictly ascending lexicographic byte order (the collected entries are the
tree's entries, strictly sorted).  Second clause: a leaf split preserves the
chain — the fresh sibling is linked in after the split page (which keeps the
prefix and points `next` at it, the sibling inheriting the old `next`) and the
stored entries are unchanged.  Third clause: a merge preserves the chain — the
surviving left node absorbs the right sibling's entries and inherits its
`next`, the right page leaving the chain — with the stored entries unchanged.
The split and merge clauses hold for any well-formed chain position with the
page-distinctness side conditions a reachable pager provides. -/
theorem leaf_chain_invariant :
    (∀ idx h ch fuel, IndexWF idx h ch → ch ≠ [] → h + ch.length ≤ fuel →
      ∃ pn, descendFirst fuel idx.pager idx.root = .ok pn ∧
        chainCollect idx.pager fuel pn.1 = chEntries ch ∧
        (chEntries ch).Pairwise (fun a b => bytesLt a.1 b.1 = true)) ∧
    (∀ pg pid n pg2 sep sid, sid ≠ 0 →
      splitNode pg pid n = .ok (pg2, some (sep, sid)) →
      ∀ pre post, chainWF pg (pre ++ (pid, n) :: post) →
        (∀ q ∈ (pre ++ (pid, n) :: post).map Prod.fst, q ≠ sid) →
        (∀ q ∈ pre.map Prod.fst, q ≠ pid) →
        (∀ q ∈ post.map Prod.fst, q ≠ pid) →
        chainWF pg2 (pre ++
          (pid, ⟨.leaf, n.keys.take (n.keys.length / 2), n.values.take (n.keys.length / 2),
            [], sid⟩) ::
          (sid, ⟨.leaf, n.keys.drop (n.keys.length / 2), n.values.drop (n.keys.length / 2),
            [], n.next⟩) :: post) ∧
        chEntries (pre ++
          (pid, ⟨.leaf, n.keys.take (n.keys.length / 2), n.values.take (n.keys.length / 2),
            [], sid⟩) ::
          (sid, ⟨.leaf, n.keys.drop (n.keys.length / 2), n.values.drop (n.keys.length / 2),
            [], n.next⟩) :: post) = chEntries (pre ++ (pid, n) :: post)) ∧
    (∀ pg parent parentID sepIdx, pg.readNode parentID = some parent →
      parent.nodeType = .internal →
      ∀ pre lid left rid right post,
        chainWF pg (pre ++ (lid, left) :: (rid, right) :: post) →
        (∀ q ∈ pre.map Prod.fst, q ≠ lid) →
        (∀ q ∈ post.map Prod.fst, q ≠ lid) →
        chainWF (((pg.freePage rid).writeNode lid
            (mergeNodes parent left right sepIdx).2).writeNode parentID
            (mergeNodes parent left right sepIdx).1)
          (pre ++ (lid, (mergeNodes parent left right sepIdx).2) :: post) ∧
        chEntries (pre ++ (lid, (mergeNodes parent left right sepIdx).2) :: post) =
          chEntries (pre ++ (lid, left) :: (rid, right) :: post)) :=
  ⟨fun idx h ch fuel hwf hne hf => chain_traverse_spec idx h ch fuel hwf hne hf,
    fun pg pid n pg2 sep sid hs0 hsp => split_chain pg pid n pg2 sep sid hs0 hsp,
    fun pg parent parentID sepIdx hp ht => merge_chain pg parent parentID sepIdx hp ht⟩

theorem leaf_chain_invariant_witness :
    (∃ pn, descendFirst 10 witIdx.pager witIdx.root = .ok pn ∧
      chainCollect witIdx.pager 10 pn.1 = chEntries witCh ∧
      (chEntries witCh).Pairwise (fun a b => bytesLt a.1 b.1 = true)) ∧
    (chainWF ⟨[(2, ⟨.leaf, [[2]], [20], [], 0⟩), (1, ⟨.leaf, [[1]], [10], [], 2⟩),
        (1, ⟨.leaf, [[1], [2]], [10, 20], [], 0⟩)], 3, []⟩
        [(1, ⟨.leaf, [[1]], [10], [], 2⟩), (2, ⟨.leaf, [[2]], [20], [], 0⟩)] ∧
      chEntries [(1, (⟨.leaf, [[1]], [10], [], 2⟩ : BNode)),
          (2, ⟨.leaf, [[2]], [20], [], 0⟩)] =
        chEntries [(1, (⟨.leaf, [[1], [2]], [10, 20], [], 0⟩ : BNode))]) ∧
    (chainWF ⟨[(3, ⟨.internal, [], [], [1], 0⟩), (1, ⟨.leaf, [[1], [2]], [10, 20], [], 0⟩),
        (1, ⟨.leaf, [[1]], [10], [], 2⟩), (2, ⟨.leaf, [[2]], [20], [], 0⟩),
        (3, ⟨.internal, [[2]], [], [1, 2], 0⟩)], 4, [2]⟩
        [(1, ⟨.leaf, [[1], [2]], [10, 20], [], 0⟩)] ∧
      chEntries [(1, (⟨.leaf, [[1], [2]], [10, 20], [], 0⟩ : BNode))] =
        chEntries [(1, (⟨.leaf, [[1]], [10], [], 2⟩ : BNode)),
          (2, ⟨.leaf, [[2]], [20], [], 0⟩)]) := by
  refine ⟨leaf_chain_invariant.1 witIdx 2 witCh 10 witIdx_wf (by decide) (by decide), ?_, ?_⟩
  · exact leaf_chain_invariant.2.1 ⟨[(1, ⟨.leaf, [[1], [2]], [10, 20], [], 0⟩)], 2, []⟩ 1
      ⟨.leaf, [[1], [2]], [10, 20], [], 0⟩ _ [2] 2 (by decide) rfl [] []
      ⟨by decide, rfl, rfl, rfl, rfl, trivial⟩ (by decide) (by simp) (by simp)
  · exact leaf_chain_invariant.2.2
      ⟨[(1, ⟨.leaf, [[1]], [10], [], 2⟩), (2, ⟨.leaf, [[2]], [20], [], 0⟩),
        (3, ⟨.internal, [[2]], [], [1, 2], 0⟩)], 4, []⟩
      ⟨.internal, [[2]], [], [1, 2], 0⟩ 3 0 rfl rfl [] 1 ⟨.leaf, [[1]], [10], [], 2⟩ 2
      ⟨.leaf, [[2]], [20], [], 0⟩ []
      ⟨by decide, rfl, rfl, rfl, rfl, by decide, rfl, rfl, rfl, rfl, trivial⟩
      (by simp) (by simp)
